import Mathlib

/-!
# Matching engine over a bounded shared queue (`src/main.cpp`)

Shallow embedding of `Person`, `Bank::CashBoxData` and the queue operations of
`Bank`.  Every lock-protected section of the C++ program is one atomic state
transformer `Bank → Bank × result`; the acting thread is an explicit argument.
Timing fields (`lastCheckTime`, `activeTime`, `inactiveTime`), the condition
variables and console output are not part of the state.

`deadEnd` and `complete` call `pushBack` once per order, each call being an
exclusive section of its own.  Here each of the two methods is one state
transformer: its sections run without another thread acting in between.

Machine integers: `int` fields are `Int`; a comparison or index that mixes
`int` with `size_t` goes through `toSizeT` (conversion modulo `2 ^ 64`).
-/

namespace Multithreading

/-- Direction of an order, `enum class Status { BUY, SELL }`. -/
inductive Status where
  | BUY
  | SELL
  deriving DecidableEq, Repr

/-- Size class of an order, `enum class Transfer { SMALL, MIDDLE, LARGE }`. -/
inductive Transfer where
  | SMALL
  | MIDDLE
  | LARGE
  deriving DecidableEq, Repr

/-- Underlying enumerator value of a `Transfer`; the built-in `>` of the scoped
enumeration compares these values. -/
def Transfer.ord : Transfer → Nat
  | .SMALL => 0
  | .MIDDLE => 1
  | .LARGE => 2

/-- Class `Person`: an order (size class and direction). -/
structure Person where
  transfer : Transfer
  status : Status
  deriving DecidableEq, Repr

/-- Value-initialised `Person{}`: both enumerations are zero, hence `SMALL` and `BUY`. -/
instance : Inhabited Person := ⟨⟨Transfer.SMALL, Status.BUY⟩⟩

/-- Operator `Person::operator==`. -/
def Person.eq (a person : Person) : Bool :=
  decide (a.transfer = person.transfer) && decide (a.status = person.status)

/-- Operator `Person::operator!=`. -/
def Person.ne (a person : Person) : Bool :=
  decide (a.transfer ≠ person.transfer) || decide (a.status ≠ person.status)

/-- Method `Person::transferCount`.  The `default:` branch that throws is unreachable for
the three enumerators. -/
def Person.transferCount (p : Person) : Int :=
  match p.transfer with
  | .SMALL => 2
  | .MIDDLE => 6
  | .LARGE => 12

/-- Thread identity (`std::thread::id`), abstracted to a number. -/
abbrev ThreadId := Nat

/-- Class `Bank::CashBoxData` without its timing fields.  The members `to` and `from` are
spelled `to_` and `from_` (both words are reserved in Lean). -/
structure CashBoxData where
  to_ : Person
  from_ : List Person
  booking : Person
  currentCheck : Int
  currentSum : Int
  deriving DecidableEq, Repr

/-- Constructor `CashBoxData::CashBoxData()`: `to{}`, `booking{}`, empty `from`, zero counters. -/
def CashBoxData.init : CashBoxData :=
  { to_ := default, from_ := [], booking := default, currentCheck := 0, currentSum := 0 }

/-- Method `CashBoxData::reset`. -/
def CashBoxData.reset (d : CashBoxData) : CashBoxData :=
  { d with currentCheck := 0, currentSum := 0, from_ := [] }

/-- Class `Bank`: the shared state.  `cashBoxData` is the `std::map` from thread id to
record, kept as an association list with one entry per key.  The atomic counters are
natural numbers (wrap-around of the 32/64-bit counters is out of reach of the claims). -/
structure Bank where
  queueOpacity : Int
  queue : List Person
  cashBoxData : List (ThreadId × CashBoxData)
  workday : Bool
  proceed : Bool
  needUpdate : Bool
  deadEndCounter : Nat
  cashBoxCounter : Nat
  served : Nat
  canceled : Nat
  deriving DecidableEq, Repr

/-- Constructor `Bank::Bank(int queueOpacity)`. -/
def Bank.init (queueOpacity : Int) : Bank :=
  { queueOpacity := queueOpacity, queue := [], cashBoxData := [],
    workday := false, proceed := true, needUpdate := false,
    deadEndCounter := 0, cashBoxCounter := 0, served := 0, canceled := 0 }

/-- Conversion of an `int` to `size_t` (64-bit), as performed by the usual arithmetic
conversions in `int >= size_t` comparisons and by `vector::operator[]`. -/
def toSizeT (i : Int) : Nat := (i % 18446744073709551616).toNat

/-- Map lookup: the record stored under `tid`, if any. -/
def lookupData : List (ThreadId × CashBoxData) → ThreadId → Option CashBoxData
  | [], _ => none
  | (k, v) :: rest, tid => if k = tid then some v else lookupData rest tid

/-- Map store: overwrite the record under `tid`, or add the key when it is absent. -/
def storeData : List (ThreadId × CashBoxData) → ThreadId → CashBoxData →
    List (ThreadId × CashBoxData)
  | [], tid, d => [(tid, d)]
  | (k, v) :: rest, tid, d =>
    if k = tid then (k, d) :: rest else (k, v) :: storeData rest tid d

/-- Value read through `cashBoxData[tid]`: the stored record, or a default-constructed
one when the key is absent. -/
def dataOf (s : Bank) (tid : ThreadId) : CashBoxData :=
  (lookupData s.cashBoxData tid).getD CashBoxData.init

/-- Write through the pointer obtained for thread `tid`. -/
def writeData (s : Bank) (tid : ThreadId) (d : CashBoxData) : Bank :=
  { s with cashBoxData := storeData s.cashBoxData tid d }

/-- Method `Bank::getCashBoxData`: `&cashBoxData[this_thread::get_id()]`.  `operator[]`
inserts a default-constructed record when the key is absent. -/
def getCashBoxData (s : Bank) (tid : ThreadId) : Bank × CashBoxData :=
  (writeData s tid (dataOf s tid), dataOf s tid)

/-- Method `Bank::freezeWorkStatus`. -/
def freezeWorkStatus (s : Bank) : Bank := { s with proceed := false }

/-- Method `Bank::unfreezeWorkStatus` (the notification has no state effect). -/
def unfreezeWorkStatus (s : Bank) : Bank := { s with proceed := true }

/-- Method `Bank::freeze_lock`: the body runs between `freezeWorkStatus` and
`unfreezeWorkStatus`, under `mainMutex` and the exclusive `RWMutex`, hence atomically. -/
def freeze_lock (s : Bank) (body : Bank → Bank × Bool) : Bank × Bool :=
  let r := body (freezeWorkStatus s)
  (unfreezeWorkStatus r.1, r.2)

/-- Method `Bank::pushBack`. -/
def pushBack (s : Bank) (person : Person) : Bank :=
  (freeze_lock s (fun s => ({ s with queue := s.queue ++ [person] }, true))).1

/-- Method `Bank::checkPerson`, run by thread `tid` on its own record.  The test
`data->currentCheck >= queue.size()` compares after converting the `int` to `size_t`. -/
def checkPerson (s : Bank) (tid : ThreadId) : Bank × Bool :=
  let data := dataOf s tid
  if s.queue.length ≤ toSizeT data.currentCheck then (s, false)
  else
    let currentPerson := s.queue.getD (toSizeT data.currentCheck) default
    if currentPerson.status = data.to_.status then (s, false)
    else if currentPerson.transfer.ord > data.to_.transfer.ord then (s, false)
    else (writeData s tid { data with booking := currentPerson }, true)

/-- Body of the loop of `Bank::updateCashBoxesData` applied to its loop variable.  The
result is the new value of that variable. -/
def updateCashBoxesData_body (data : ThreadId × CashBoxData) (update : Int) :
    ThreadId × CashBoxData :=
  if data.2.currentCheck > update then
    (data.1, { data.2 with currentCheck := data.2.currentCheck - 1 })
  else data

/-- Method `Bank::updateCashBoxesData`.  The loop is `for (auto data: cashBoxData)`: the
loop variable is declared without `&`, so every iteration works on a copy of the map
entry and the copy is dropped at the end of the iteration; `cashBoxData` is not
written. -/
def updateCashBoxesData (s : Bank) (update : Int) : Bank :=
  s.cashBoxData.foldl
    (fun st data =>
      let _copy := updateCashBoxesData_body data update
      st)
    s

/-- Method `Bank::pop`, run by thread `tid`.  Past the bound test the iterator offset of
`queue.erase(queue.cbegin() + index)` is the converted index. -/
def pop (s : Bank) (tid : ThreadId) (index : Int) : Bank × Bool :=
  freeze_lock s (fun s =>
    let r := getCashBoxData s tid
    let s := r.1
    let data := r.2
    if s.queue.length ≤ toSizeT index then (s, false)
    else if Person.ne (s.queue.getD (toSizeT index) default) data.booking then (s, false)
    else
      let person := s.queue.getD (toSizeT index) default
      let s := { s with queue := s.queue.eraseIdx (toSizeT index) }
      let data := { data with from_ := data.from_ ++ [person] }
      let data := { data with currentSum := data.currentSum + person.transferCount }
      let s := writeData s tid data
      (updateCashBoxesData s index, true))

/-- Method `Bank::bookFirst`, run by thread `tid`. -/
def bookFirst (s : Bank) (tid : ThreadId) : Bank × Bool :=
  freeze_lock s (fun s =>
    match s.queue with
    | [] => (s, false)
    | first :: rest =>
      let r := getCashBoxData s tid
      let s := writeData r.1 tid { r.2 with to_ := first }
      ({ s with queue := rest }, true))

/-- Lock-protected body of `Bank::clear`. -/
def clear (s : Bank) : Bank :=
  (freeze_lock s (fun s =>
    ({ s with canceled := s.canceled + s.queue.length, queue := [] }, true))).1

/-- Method `Bank::deadEnd` up to the point where the thread parks in `waitUpdate`:
every collected order is pushed back, the record is reset, the dead-end counter is
incremented and `needUpdate` is raised. -/
def deadEnd (s : Bank) (tid : ThreadId) : Bank :=
  let s := (dataOf s tid).from_.foldl pushBack s
  let s := writeData s tid (dataOf s tid).reset
  let s := { s with deadEndCounter := s.deadEndCounter + 1 }
  { s with needUpdate := true }

/-- Rest of `Bank::deadEnd` after `waitUpdate` returns: `deadEndCounter.fetch_sub(1)`. -/
def deadEndWake (s : Bank) : Bank :=
  { s with deadEndCounter := s.deadEndCounter - 1 }

/-- Sum of the quantities of a sequence of orders. -/
def totalCount (l : List Person) : Int := (l.map Person.transferCount).sum

/-- Order produced by the comparator of `complete`,
`[](Person a, Person b) { return a.transferCount() > b.transferCount(); }`: after the
sort no later element has a strictly larger quantity than an earlier one. -/
def countGe (a b : Person) : Prop := b.transferCount ≤ a.transferCount

instance : DecidableRel countGe := fun a b => Int.decLe b.transferCount a.transferCount

instance : IsTotal Person countGe := ⟨fun a b => Int.le_total b.transferCount a.transferCount⟩

instance : IsTrans Person countGe := ⟨fun _ _ _ hab hbc => Int.le_trans hbc hab⟩

/-- The call `sort(from.begin(), from.end(), comparator)` of `complete`.  `std::sort` leaves
the relative order of orders of equal quantity unspecified; the model keeps it.  The
sequence of quantities of the result is the same for every admissible result
(`sorted_counts_unique`), and the consumption loop reads nothing else
(`consumeLoop_congr`). -/
def sortByCount (l : List Person) : List Person := l.insertionSort countGe

/-- One iteration of the consumption loop of `complete` on the state
`(remainder, lastPerson)`: `remainder -= from[lastPerson].transferCount(); lastPerson++;`.
The result is `none` when `from[lastPerson]` lies outside the vector (undefined
behaviour in C++). -/
def consumeStep (from_ : List Person) (st : Int × Nat) : Option (Int × Nat) :=
  match from_[st.2]? with
  | none => none
  | some person => some (st.1 - person.transferCount, st.2 + 1)

/-- Outcome of the consumption loop. -/
inductive LoopResult where
  | done (remainder : Int) (lastPerson : Nat)
  | outOfRange
  | outOfFuel
  deriving DecidableEq, Repr

/-- The loop `while (remainder) { ... }` of `complete`, started in state `st`, with an
iteration budget. -/
def consumeLoop (from_ : List Person) : Nat → Int × Nat → LoopResult
  | 0, _ => LoopResult.outOfFuel
  | fuel + 1, st =>
    if st.1 = 0 then LoopResult.done st.1 st.2
    else
      match consumeStep from_ st with
      | none => LoopResult.outOfRange
      | some st' => consumeLoop from_ fuel st'

/-- Values of `remainder` at the successive evaluations of the loop condition
`while (remainder)`, for the same loop. -/
def remainders (from_ : List Person) : Nat → Int × Nat → List Int
  | 0, _ => []
  | fuel + 1, st =>
    st.1 ::
      (if st.1 = 0 then []
       else
        match consumeStep from_ st with
        | none => []
        | some st' => remainders from_ fuel st')

/-- Method `Bank::complete`, run by thread `tid`.  The result is `none` when the
consumption loop reads past the end of `from`.  The loop can perform at most
`from.size()` iterations before that happens, so the budget `from.size() + 1` never
runs out (`consumeLoop_fuel`). -/
def complete (s : Bank) (tid : ThreadId) : Option Bank :=
  let r := getCashBoxData s tid
  let data := { r.2 with from_ := sortByCount r.2.from_ }
  let s := writeData r.1 tid data
  match consumeLoop data.from_ (data.from_.length + 1) (data.to_.transferCount, 0) with
  | LoopResult.done _ lastPerson =>
    let s := (data.from_.drop lastPerson).foldl pushBack s
    let s := writeData s tid (dataOf s tid).reset
    some { s with served := s.served + 1 }
  | _ => none

/-- Statement `data->currentCheck++` at the end of the scan loop body. -/
def advance (s : Bank) (tid : ThreadId) : Bank :=
  writeData s tid { dataOf s tid with currentCheck := (dataOf s tid).currentCheck + 1 }

/-- Second half of the body of the scan loop of `Bank::continueCashBoxJob`:
`if (checkPerson(data)) { pop(data->currentCheck); } data->currentCheck++;`, with no
other thread acting in between. -/
def loopTail (s : Bank) (tid : ThreadId) : Bank :=
  let r := checkPerson s tid
  let s := if r.2 then (pop r.1 tid (dataOf r.1 tid).currentCheck).1 else r.1
  advance s tid

/-- Ways in which one pass through the body of the scan loop ends. -/
inductive Iteration where
  | next (s : Bank)
  | stop (s : Bank)
  | parked (s : Bank)
  deriving DecidableEq, Repr

/-- Body of the loop `while (data->currentSum < data->to.transferCount())` of
`Bank::continueCashBoxJob`, entered with the loop condition true.  `stop` is the `break`
taken when `workday` is false; `parked` is the thread waiting in `waitUpdate` inside
`deadEnd` (the test `data->currentCheck > queue.size()` compares as `size_t`); `next` is
the end of the body.  `checkFreezing` has no effect on the state: outside an exclusive
section `proceed` is true. -/
def loopBody (s : Bank) (tid : ThreadId) : Iteration :=
  if s.workday = false then Iteration.stop s
  else if s.queue.length < toSizeT (dataOf s tid).currentCheck then
    Iteration.parked (deadEnd s tid)
  else Iteration.next (loopTail s tid)

/-- Continuation of a parked thread once `waitUpdate` returns: the rest of `deadEnd` and
the rest of the loop body. -/
def resume (s : Bank) (tid : ThreadId) : Bank :=
  loopTail (deadEndWake s) tid

/-- Ways in which a worker leaves (or is held in) one pass of the job body. -/
inductive JobResult where
  | finished (s : Bank)
  | parked (s : Bank)
  | undefinedBehaviour
  | outOfFuel
  deriving DecidableEq, Repr

/-- The scan loop of `Bank::continueCashBoxJob` run by thread `tid` alone, with an
iteration budget. -/
def scanLoop (tid : ThreadId) : Nat → Bank → JobResult
  | 0, _ => JobResult.outOfFuel
  | fuel + 1, s =>
    if (dataOf s tid).currentSum < (dataOf s tid).to_.transferCount then
      match loopBody s tid with
      | Iteration.next s' => scanLoop tid fuel s'
      | Iteration.stop s' => JobResult.finished s'
      | Iteration.parked s' => JobResult.parked s'
    else JobResult.finished s

/-- One pass of the lambda that `Bank::continueCashBoxJob` hands to `work`, run by thread
`tid` alone: book the head of the queue (or return after `waitUpdate`, whose wait has no
state effect), scan, and complete when the sum is reached. -/
def continueCashBoxJob_body (tid : ThreadId) (fuel : Nat) (s : Bank) : JobResult :=
  let r := bookFirst s tid
  if r.2 = false then JobResult.finished r.1
  else
    match scanLoop tid fuel r.1 with
    | JobResult.finished s' =>
      if (dataOf s' tid).currentSum ≥ (dataOf s' tid).to_.transferCount then
        match complete s' tid with
        | some s'' => JobResult.finished s''
        | none => JobResult.undefinedBehaviour
      else JobResult.finished s'
    | other => other

/-- Method `Bank::beginCashBoxJob` up to the call of `continueCashBoxJob`: the counter is
incremented and a fresh record is stored under the thread id. -/
def beginCashBoxJob (s : Bank) (tid : ThreadId) : Bank :=
  let s := { s with cashBoxCounter := s.cashBoxCounter + 1 }
  writeData s tid CashBoxData.init

/-- Body of the loop of `Bank::continueWorkday` after the sleep, with `newPerson` the
order that `generatePerson` draws.  The capacity test `queue.size() < queueOpacity`
compares as `size_t`.  The `else` branch only notifies the clearing thread. -/
def continueWorkday_body (s : Bank) (newPerson : Person) : Bank :=
  if s.queue.length < toSizeT s.queueOpacity then
    { pushBack s newPerson with needUpdate := false }
  else s

/-- Number of orders that the consumption loop of `complete` takes from the sorted
collected sequence of record `d` (its final `lastPerson`). -/
def consumedCount (d : CashBoxData) : Nat :=
  match consumeLoop (sortByCount d.from_) (d.from_.length + 1) (d.to_.transferCount, 0) with
  | LoopResult.done _ lastPerson => lastPerson
  | _ => 0

/-- The bank together with two bookkeeping counters that the program does not hold:
`generated`, the number of orders the generator has appended, and `matched`, the number
of orders consumed into matches (booked as a target, or taken by `complete`). -/
structure Engine where
  bank : Bank
  generated : Nat
  matched : Nat
  deriving DecidableEq, Repr

/-- The empty engine of a given capacity. -/
def Engine.init (queueOpacity : Int) : Engine :=
  { bank := Bank.init queueOpacity, generated := 0, matched := 0 }

/-- Atomic steps of the program.  Besides the six steps that change the queue, the
worker-local steps `checkPerson` and `advance`, the registration of a worker and the
start and end of the working day are steps as well. -/
inductive Action where
  | beginWorkday
  | endWorkday
  | register (tid : ThreadId)
  | generate (person : Person)
  | bookFirst (tid : ThreadId)
  | checkPerson (tid : ThreadId)
  | pop (tid : ThreadId)
  | advance (tid : ThreadId)
  | deadEnd (tid : ThreadId)
  | wake (tid : ThreadId)
  | complete (tid : ThreadId)
  | clear
  deriving DecidableEq, Repr

/-- Effect of one atomic step.  `register` is possible only for a thread without a record
(a thread registers once, when it starts); `complete` has no successor state when its
loop reads past the end of the collected sequence. -/
def Engine.apply (e : Engine) : Action → Option Engine
  | Action.beginWorkday => some { e with bank := { e.bank with workday := true } }
  | Action.endWorkday => some { e with bank := { e.bank with workday := false } }
  | Action.register tid =>
    if (lookupData e.bank.cashBoxData tid).isSome then none
    else some { e with bank := beginCashBoxJob e.bank tid }
  | Action.generate person =>
    some { e with
      bank := continueWorkday_body e.bank person,
      generated :=
        if e.bank.queue.length < toSizeT e.bank.queueOpacity then e.generated + 1
        else e.generated }
  | Action.bookFirst tid =>
    some { e with
      bank := (bookFirst e.bank tid).1,
      matched := if (bookFirst e.bank tid).2 then e.matched + 1 else e.matched }
  | Action.checkPerson tid => some { e with bank := (checkPerson e.bank tid).1 }
  | Action.pop tid =>
    some { e with bank := (pop e.bank tid (dataOf e.bank tid).currentCheck).1 }
  | Action.advance tid => some { e with bank := advance e.bank tid }
  | Action.deadEnd tid => some { e with bank := deadEnd e.bank tid }
  | Action.wake _ => some { e with bank := deadEndWake e.bank }
  | Action.complete tid =>
    match complete e.bank tid with
    | none => none
    | some s' =>
      some { e with bank := s', matched := e.matched + consumedCount (dataOf e.bank tid) }
  | Action.clear => some { e with bank := clear e.bank }

/-- Guards that the control flow of `continueCashBoxJob` puts in front of a step: `pop`
and `deadEnd` are only called inside the scan loop, whose condition
`currentSum < to.transferCount()` was true at the loop head and reads only fields that
no other thread writes. -/
def Engine.inScan (e : Engine) : Action → Bool
  | Action.pop tid =>
    decide ((dataOf e.bank tid).currentSum < (dataOf e.bank tid).to_.transferCount)
  | Action.deadEnd tid =>
    decide ((dataOf e.bank tid).currentSum < (dataOf e.bank tid).to_.transferCount)
  | _ => true

/-- Any sequence of atomic steps, executed from `e`. -/
def Engine.run (e : Engine) : List Action → Option Engine
  | [] => some e
  | a :: rest =>
    match e.apply a with
    | none => none
    | some e' => e'.run rest

/-- A sequence of atomic steps in which `pop` and `deadEnd` respect the guard of the
scan loop, executed from `e`. -/
def Engine.runScan (e : Engine) : List Action → Option Engine
  | [] => some e
  | a :: rest =>
    if e.inScan a then
      match e.apply a with
      | none => none
      | some e' => e'.runScan rest
    else none

/-- Sum of a per-record quantity over all worker records. -/
def sumOver (f : CashBoxData → Nat) (m : List (ThreadId × CashBoxData)) : Nat :=
  (m.map (fun w => f w.2)).sum

/-- Number of orders held in the collected sequences of all worker records. -/
def heldOrders (s : Bank) : Nat := sumOver (fun d => d.from_.length) s.cashBoxData

/-- Number of orders held in the collected sequences, counting at most five per record. -/
def heldCapped (s : Bank) : Nat := sumOver (fun d => min d.from_.length 5) s.cashBoxData

/-- Orders accounted for in a state: in the queue, held in collected sequences, consumed
into matches, and canceled by `clear`. -/
def Engine.accounted (e : Engine) : Nat :=
  e.bank.queue.length + heldOrders e.bank + e.matched + e.bank.canceled

/-- Invariant of the guarded runs of an engine of capacity `cap`: the capacity is never
modified; the running sum of every record is the total quantity of its collected
sequence; no record holds more than six orders; and the queue length plus the capped
number of held orders is at most the capacity plus five per record. -/
def Engine.Inv (cap : Int) (e : Engine) : Prop :=
  e.bank.queueOpacity = cap ∧
  (∀ t, (dataOf e.bank t).currentSum = totalCount (dataOf e.bank t).from_) ∧
  (∀ t, (dataOf e.bank t).from_.length ≤ 6) ∧
  e.bank.queue.length + heldCapped e.bank ≤ toSizeT cap + 5 * e.bank.cashBoxData.length

/-! ## Concrete orders and states used in the examples -/

/-- Order BUY/LARGE. -/
def buyLarge : Person := ⟨Transfer.LARGE, Status.BUY⟩

/-- Order BUY/SMALL. -/
def buySmall : Person := ⟨Transfer.SMALL, Status.BUY⟩

/-- Order SELL/SMALL. -/
def sellSmall : Person := ⟨Transfer.SMALL, Status.SELL⟩

/-- Order SELL/MIDDLE. -/
def sellMiddle : Person := ⟨Transfer.MIDDLE, Status.SELL⟩

/-- Order SELL/LARGE. -/
def sellLarge : Person := ⟨Transfer.LARGE, Status.SELL⟩

/-- A running bank of capacity 5 with the given queue and worker records. -/
def bankWith (queue : List Person) (cashBoxData : List (ThreadId × CashBoxData)) : Bank :=
  { Bank.init 5 with
    queue := queue, cashBoxData := cashBoxData, workday := true,
    cashBoxCounter := cashBoxData.length }

/-- A run with capacity 5 and two workers.  Worker 0 books BUY/LARGE and worker 1 books
SELL/SMALL; four more orders arrive; worker 1 passes the three SELL orders at indices 0
to 2, which are no candidates for it, and has its cursor on the BUY/SMALL order at index
3; worker 0 books the SELL/MIDDLE order at index 0. -/
def twoWorkersRun : List Action :=
  [Action.beginWorkday, Action.register 0, Action.register 1,
   Action.generate buyLarge, Action.generate sellSmall,
   Action.bookFirst 0, Action.bookFirst 1,
   Action.generate sellMiddle, Action.generate sellLarge, Action.generate sellSmall,
   Action.generate buySmall,
   Action.checkPerson 1, Action.advance 1,
   Action.checkPerson 1, Action.advance 1,
   Action.checkPerson 1, Action.advance 1,
   Action.checkPerson 0]

/-- State reached by `twoWorkersRun`: worker 0 is about to remove index 0, the cursor of
worker 1 is 3. -/
def twoWorkers : Bank :=
  bankWith [sellMiddle, sellLarge, sellSmall, buySmall]
    [(0, { CashBoxData.init with to_ := buyLarge, booking := sellMiddle }),
     (1, { CashBoxData.init with to_ := sellSmall, currentCheck := 3 })]

/-- A run with capacity 5 and two workers that both book a BUY/LARGE order and both find
the SELL/MIDDLE order at index 0 eligible; worker 1 removes it first. -/
def lostRaceRun : List Action :=
  [Action.beginWorkday, Action.register 0, Action.register 1,
   Action.generate buyLarge, Action.generate buyLarge,
   Action.bookFirst 0, Action.bookFirst 1,
   Action.generate sellMiddle, Action.generate sellSmall,
   Action.checkPerson 0, Action.checkPerson 1, Action.pop 1]

/-- State reached by `lostRaceRun`: the booking SELL/MIDDLE of worker 0 is stale, the
order at its cursor 0 is now SELL/SMALL. -/
def staleBooking : Bank :=
  bankWith [sellSmall]
    [(0, { CashBoxData.init with to_ := buyLarge, booking := sellMiddle }),
     (1, { CashBoxData.init with
            to_ := buyLarge, from_ := [sellMiddle], booking := sellMiddle, currentSum := 6 })]

/-- One worker with target BUY/LARGE that has collected four SELL/SMALL orders and then a
SELL/MIDDLE order (running sum 14), over a queue holding one BUY/SMALL order. -/
def readyToComplete : Bank :=
  bankWith [buySmall]
    [(0, { CashBoxData.init with
            to_ := buyLarge,
            from_ := [sellSmall, sellSmall, sellSmall, sellSmall, sellMiddle],
            booking := sellMiddle, currentCheck := 1, currentSum := 14 })]

/-- The end-to-end scenario: capacity 5, one registered worker, queue
`[BUY/LARGE, SELL/SMALL, SELL/SMALL, SELL/MIDDLE]`, the day running. -/
def scenario : Bank :=
  bankWith [buyLarge, sellSmall, sellSmall, sellMiddle] [(0, CashBoxData.init)]

/-- A scanning worker (target BUY/LARGE, nothing collected, cursor 0) in front of the
queue `[SELL/SMALL, SELL/SMALL, SELL/MIDDLE]`. -/
def scanStart : Bank :=
  bankWith [sellSmall, sellSmall, sellMiddle]
    [(0, { CashBoxData.init with to_ := buyLarge })]

/-- A run that uses every kind of queue step: five orders are generated, the worker books
BUY/SMALL, takes SELL/SMALL and completes, books BUY/LARGE, takes SELL/MIDDLE, dead-ends
and requeues it, the day ends and the clearing thread empties the queue. -/
def sampleRun : List Action :=
  [Action.beginWorkday, Action.register 0,
   Action.generate buySmall, Action.generate sellSmall, Action.generate buyLarge,
   Action.generate sellMiddle, Action.generate buySmall,
   Action.bookFirst 0, Action.checkPerson 0, Action.pop 0, Action.advance 0,
   Action.complete 0,
   Action.bookFirst 0, Action.checkPerson 0, Action.pop 0, Action.advance 0,
   Action.checkPerson 0, Action.advance 0,
   Action.deadEnd 0, Action.endWorkday, Action.clear]

/-- State reached by `sampleRun` from the empty engine of capacity 5. -/
def sampleEnd : Engine :=
  { bank :=
      { Bank.init 5 with
        cashBoxData := [(0, { CashBoxData.init with to_ := buyLarge, booking := sellMiddle })],
        workday := false, needUpdate := true, deadEndCounter := 1, cashBoxCounter := 1,
        served := 1, canceled := 2 },
    generated := 5, matched := 3 }

/-- A run of the program with capacity 2 and one worker.  The worker books BUY/LARGE;
while it takes two SELL/SMALL orders (at its cursor positions 0 and 1) the generator
refills the queue to two orders each time; the worker then finds its cursor at the end
of the queue, advances, finds it beyond the end and dead-ends, pushing its two collected
orders back onto the full queue. -/
def refillRun : List Action :=
  [Action.beginWorkday, Action.register 0,
   Action.generate buyLarge, Action.bookFirst 0,
   Action.generate sellSmall, Action.generate sellSmall,
   Action.checkPerson 0, Action.pop 0, Action.advance 0,
   Action.generate sellSmall,
   Action.checkPerson 0, Action.pop 0, Action.advance 0,
   Action.generate sellSmall,
   Action.checkPerson 0, Action.advance 0,
   Action.deadEnd 0]

/-- State reached by `refillRun` from the empty engine of capacity 2. -/
def refillEnd : Engine :=
  { bank :=
      { Bank.init 2 with
        queue := [sellSmall, sellSmall, sellSmall, sellSmall],
        cashBoxData := [(0, { CashBoxData.init with to_ := buyLarge, booking := sellSmall })],
        workday := true, needUpdate := true, deadEndCounter := 1, cashBoxCounter := 1 },
    generated := 5, matched := 1 }

/-- A run with capacity 5 and one worker in which the worker takes five SELL/SMALL orders
(cursor positions 0 to 4) while the generator refills the queue after each removal, and
then dead-ends. -/
def fullRefillRun : List Action :=
  [Action.beginWorkday, Action.register 0,
   Action.generate buyLarge, Action.bookFirst 0,
   Action.generate sellSmall, Action.generate sellSmall, Action.generate sellSmall,
   Action.generate sellSmall, Action.generate sellSmall,
   Action.checkPerson 0, Action.pop 0, Action.advance 0, Action.generate sellSmall,
   Action.checkPerson 0, Action.pop 0, Action.advance 0, Action.generate sellSmall,
   Action.checkPerson 0, Action.pop 0, Action.advance 0, Action.generate sellSmall,
   Action.checkPerson 0, Action.pop 0, Action.advance 0, Action.generate sellSmall,
   Action.checkPerson 0, Action.pop 0, Action.advance 0, Action.generate sellSmall,
   Action.checkPerson 0, Action.advance 0,
   Action.deadEnd 0]

/-- A run with configured capacity `-1` and one worker record in which the generator
appends seven orders in a row. -/
def negativeCapacityRun : List Action :=
  [Action.beginWorkday, Action.register 0,
   Action.generate buySmall, Action.generate buySmall, Action.generate buySmall,
   Action.generate buySmall, Action.generate buySmall, Action.generate buySmall,
   Action.generate buySmall]

/-! ## Theorems -/

theorem Person.ne_iff (a b : Person) : Person.ne a b = true ↔ a ≠ b := by
  cases a; cases b; simp [Person.ne]; tauto

theorem Person.eq_iff (a b : Person) : Person.eq a b = true ↔ a = b := by
  cases a; cases b; simp [Person.eq]

theorem toSizeT_of_nonneg (i : Int) (h0 : 0 ≤ i) (h1 : i < 2147483648) :
    toSizeT i = i.toNat := by
  unfold toSizeT; omega

theorem toSizeT_of_neg (i : Int) (h0 : i < 0) (h1 : -2147483648 ≤ i) :
    9223372036854775808 ≤ toSizeT i := by
  unfold toSizeT; omega

theorem lookupData_storeData (m : List (ThreadId × CashBoxData)) (tid t : ThreadId)
    (d : CashBoxData) :
    lookupData (storeData m tid d) t = if t = tid then some d else lookupData m t := by
  induction m with
  | nil =>
    by_cases h : t = tid
    · simp [storeData, lookupData, h]
    · have h2 : ¬ tid = t := fun e => h e.symm
      simp [storeData, lookupData, h, h2]
  | cons e rest ih =>
    obtain ⟨k, v⟩ := e
    by_cases hk : k = tid
    · by_cases h : t = tid
      · simp [storeData, lookupData, hk, h]
      · have h2 : ¬ tid = t := fun e => h e.symm
        simp [storeData, lookupData, hk, h, h2]
    · by_cases h : t = tid
      · subst h
        simp [storeData, lookupData, hk, ih]
      · by_cases hkt : k = t
        · simp [storeData, lookupData, hk, h, hkt]
        · simp [storeData, lookupData, hk, h, hkt, ih]

theorem dataOf_writeData (s : Bank) (tid t : ThreadId) (d : CashBoxData) :
    dataOf (writeData s tid d) t = if t = tid then d else dataOf s t := by
  unfold dataOf writeData
  simp only [lookupData_storeData]
  split <;> rfl

theorem getD_eq_of_getElem? (q : List Person) (i : Nat) (A : Person)
    (h : q[i]? = some A) : q.getD i default = A := by
  simp [List.getD, h]

theorem getElem?_of_lt (q : List Person) (i : Nat) (h : i < q.length) :
    q[i]? = some (q.getD i default) := by
  simp [List.getD, List.getElem?_eq_getElem h]

/-- C1. `checkPerson` returns true exactly when the cursor is inside the queue and the
order `A` at the cursor has a direction different from the target's and a size class
whose ordinal is at most the target's; a LARGE target accepts every opposite-direction
order, a SMALL target rejects opposite-direction MIDDLE and LARGE orders; and on `true`
the booking of the worker is `A`. -/
theorem checkPerson_candidate_rule (s : Bank) (tid : ThreadId)
    (hlo : -2147483648 ≤ (dataOf s tid).currentCheck)
    (hhi : (dataOf s tid).currentCheck < 2147483648)
    (hq : s.queue.length < 9223372036854775808) :
    ((checkPerson s tid).2 = true ↔
      ∃ A, 0 ≤ (dataOf s tid).currentCheck ∧
        s.queue[(dataOf s tid).currentCheck.toNat]? = some A ∧
        A.status ≠ (dataOf s tid).to_.status ∧
        A.transfer.ord ≤ (dataOf s tid).to_.transfer.ord) ∧
    (∀ A, 0 ≤ (dataOf s tid).currentCheck →
      s.queue[(dataOf s tid).currentCheck.toNat]? = some A →
      ((dataOf s tid).to_.transfer = Transfer.LARGE →
        A.status ≠ (dataOf s tid).to_.status → (checkPerson s tid).2 = true) ∧
      ((dataOf s tid).to_.transfer = Transfer.SMALL →
        A.transfer ≠ Transfer.SMALL → (checkPerson s tid).2 = false) ∧
      ((checkPerson s tid).2 = true →
        (dataOf (checkPerson s tid).1 tid).booking = A)) := by
  have key : ∀ A, 0 ≤ (dataOf s tid).currentCheck →
      s.queue[(dataOf s tid).currentCheck.toNat]? = some A →
      ((checkPerson s tid).2 = true ↔
        (A.status ≠ (dataOf s tid).to_.status ∧
          A.transfer.ord ≤ (dataOf s tid).to_.transfer.ord)) ∧
      ((checkPerson s tid).2 = true →
        (dataOf (checkPerson s tid).1 tid).booking = A) := by
    intro A h0 hA
    have hconv := toSizeT_of_nonneg _ h0 hhi
    have hlt : (dataOf s tid).currentCheck.toNat < s.queue.length := by
      by_contra hge
      rw [List.getElem?_eq_none (by omega)] at hA
      cases hA
    have hget := getD_eq_of_getElem? _ _ _ hA
    unfold checkPerson
    simp only [hconv, hget]
    rw [if_neg (by omega)]
    by_cases hs : A.status = (dataOf s tid).to_.status
    · simp [hs]
    · by_cases ht : A.transfer.ord > (dataOf s tid).to_.transfer.ord
      · simp [hs, ht]
      · simp [hs, ht, dataOf_writeData]
        omega
  refine ⟨⟨?_, ?_⟩, ?_⟩
  · intro h
    by_cases h0 : 0 ≤ (dataOf s tid).currentCheck
    · have hconv := toSizeT_of_nonneg _ h0 hhi
      by_cases hlt : (dataOf s tid).currentCheck.toNat < s.queue.length
      · have hA := getElem?_of_lt _ _ hlt
        exact ⟨_, h0, hA, ((key _ h0 hA).1).1 h⟩
      · exfalso
        unfold checkPerson at h
        simp only [hconv] at h
        rw [if_pos (by omega)] at h
        cases h
    · exfalso
      have hneg := toSizeT_of_neg _ (by omega) hlo
      unfold checkPerson at h
      rw [if_pos (by omega)] at h
      cases h
  · rintro ⟨A, h0, hA, hs, ht⟩
    exact ((key A h0 hA).1).2 ⟨hs, ht⟩
  · intro A h0 hA
    obtain ⟨hiff, hbook⟩ := key A h0 hA
    refine ⟨?_, ?_, hbook⟩
    · intro hL hs
      apply hiff.2
      refine ⟨hs, ?_⟩
      rw [hL]
      cases A.transfer <;> simp [Transfer.ord]
    · intro hS hne
      cases hr : (checkPerson s tid).2
      · rfl
      · exfalso
        have h2 := (hiff.1 hr).2
        rw [hS] at h2
        revert hne h2
        cases A.transfer <;> simp [Transfer.ord]

/-- Witness of C1: worker 0 of `staleBooking` (target BUY/LARGE, cursor 0) finds the
SELL/SMALL order at its cursor eligible and books it. -/
theorem checkPerson_candidate_rule_witness :
    (checkPerson staleBooking 0).2 = true ∧
      (dataOf (checkPerson staleBooking 0).1 0).booking = sellSmall :=
  have h := (checkPerson_candidate_rule staleBooking 0 (by decide) (by decide) (by decide)).2
    sellSmall (by decide) (by decide)
  ⟨h.1 (by decide) (by decide), h.2.2 (h.1 (by decide) (by decide))⟩

theorem updateCashBoxesData_eq (s : Bank) (update : Int) : updateCashBoxesData s update = s := by
  unfold updateCashBoxesData
  induction s.cashBoxData with
  | nil => rfl
  | cons e rest ih => simp [ih]

theorem dataOf_proceed (s : Bank) (b : Bool) (t : ThreadId) :
    dataOf { s with proceed := b } t = dataOf s t := rfl

theorem dataOf_queue (s : Bank) (q : List Person) (t : ThreadId) :
    dataOf { s with queue := q } t = dataOf s t := rfl

theorem dataOf_getCashBoxData (s : Bank) (tid t : ThreadId) :
    dataOf (getCashBoxData s tid).1 t = dataOf s t := by
  unfold getCashBoxData
  simp only [dataOf_writeData]
  split
  · next h => rw [h]
  · rfl

/-- Effect of a failing `pop`: the only possible change is the default record that
`getCashBoxData` inserts for a thread without one. -/
theorem pop_fail_state (s : Bank) (tid : ThreadId) (index : Int)
    (h : (pop s tid index).2 = false) :
    (pop s tid index).1 = unfreezeWorkStatus (getCashBoxData (freezeWorkStatus s) tid).1 := by
  unfold pop freeze_lock at h ⊢
  simp only at h ⊢
  split at h
  · rw [if_pos (by assumption)]
  · next h1 =>
    rw [if_neg h1]
    split at h
    · rw [if_pos (by assumption)]
    · cases h

/-- Effect of a successful `pop` on the queue and on the records. -/
theorem pop_success_state (s : Bank) (tid : ThreadId) (index : Int)
    (h : (pop s tid index).2 = true) :
    toSizeT index < s.queue.length ∧
    s.queue.getD (toSizeT index) default = (dataOf s tid).booking ∧
    (pop s tid index).1.queue = s.queue.eraseIdx (toSizeT index) ∧
    (∀ t, dataOf (pop s tid index).1 t =
      if t = tid then
        { dataOf s tid with
          from_ := (dataOf s tid).from_ ++ [s.queue.getD (toSizeT index) default],
          currentSum := (dataOf s tid).currentSum +
            (s.queue.getD (toSizeT index) default).transferCount }
      else dataOf s t) := by
  unfold pop freeze_lock at h ⊢
  simp only at h ⊢
  split at h
  · cases h
  · next h1 =>
    rw [if_neg h1]
    split at h
    · cases h
    · next h2 =>
      rw [if_neg h2]
      have h1' : toSizeT index < s.queue.length := by
        simpa [getCashBoxData, writeData, freezeWorkStatus] using h1
      have h2' : s.queue.getD (toSizeT index) default = (dataOf s tid).booking := by
        have := (Person.ne_iff _ _).not.1 h2
        simpa [getCashBoxData, writeData, freezeWorkStatus, dataOf] using this
      refine ⟨h1', h2', ?_, ?_⟩
      · simp [updateCashBoxesData_eq, unfreezeWorkStatus, writeData, getCashBoxData,
          freezeWorkStatus]
      · intro t
        simp only [updateCashBoxesData_eq, unfreezeWorkStatus, dataOf_proceed,
          dataOf_writeData]
        split
        · simp [getCashBoxData, writeData, freezeWorkStatus, dataOf]
        · simp [getCashBoxData, freezeWorkStatus, dataOf_writeData, dataOf_queue,
            dataOf_proceed, *]

/-- Result of `pop` as a closed formula of the pre-state. -/
theorem pop_result (s : Bank) (tid : ThreadId) (index : Int) :
    (pop s tid index).2 =
      (decide (toSizeT index < s.queue.length) &&
        decide (s.queue.getD (toSizeT index) default = (dataOf s tid).booking)) := by
  unfold pop freeze_lock
  simp only
  by_cases h1 : s.queue.length ≤ toSizeT index
  · have h1' : (getCashBoxData (freezeWorkStatus s) tid).1.queue.length ≤ toSizeT index := h1
    rw [if_pos h1', decide_eq_false (Nat.not_lt.2 h1), Bool.false_and]
  · have h1' : ¬ (getCashBoxData (freezeWorkStatus s) tid).1.queue.length ≤ toSizeT index := h1
    rw [if_neg h1']
    have hq : (getCashBoxData (freezeWorkStatus s) tid).1.queue = s.queue := rfl
    have hd : (getCashBoxData (freezeWorkStatus s) tid).2 = dataOf s tid := rfl
    rw [hq, hd]
    by_cases h2 : s.queue.getD (toSizeT index) default = (dataOf s tid).booking
    · have h2' : ¬ Person.ne (s.queue.getD (toSizeT index) default) (dataOf s tid).booking
          = true := by
        rw [Person.ne_iff]; exact fun h => h h2
      rw [if_neg h2', decide_eq_true (Nat.lt_of_not_le h1), decide_eq_true h2]
      rfl
    · have h2' : Person.ne (s.queue.getD (toSizeT index) default) (dataOf s tid).booking
          = true := (Person.ne_iff _ _).2 h2
      rw [if_pos h2', decide_eq_false h2, Bool.and_false]

/-- No call of `pop` changes the cursor of any worker. -/
theorem pop_currentCheck (s : Bank) (tid : ThreadId) (index : Int) (t : ThreadId) :
    (dataOf (pop s tid index).1 t).currentCheck = (dataOf s t).currentCheck := by
  cases h : (pop s tid index).2
  · rw [pop_fail_state s tid index h]
    simp only [unfreezeWorkStatus, dataOf_proceed, dataOf_getCashBoxData]
    rfl
  · rw [(pop_success_state s tid index h).2.2.2 t]
    split
    · next e => rw [e]
    · rfl

/-- C8. `pop` returns false exactly when the index is out of bounds or the order at the
index differs (in size class or direction) from the booking of the calling worker; and
when it returns false the queue, the collected sequence and running sum of the caller
and the cursor of every worker are unchanged. -/
theorem pop_false_iff (s : Bank) (tid : ThreadId) (index : Int)
    (hlo : -2147483648 ≤ index) (hhi : index < 2147483648)
    (hq : s.queue.length < 9223372036854775808) :
    ((pop s tid index).2 = false ↔
      ((index < 0 ∨ (s.queue.length : Int) ≤ index) ∨
        ∃ p, 0 ≤ index ∧ s.queue[index.toNat]? = some p ∧
          ¬ (p.transfer = (dataOf s tid).booking.transfer ∧
              p.status = (dataOf s tid).booking.status))) ∧
    ((pop s tid index).2 = false →
      (pop s tid index).1.queue = s.queue ∧
      (dataOf (pop s tid index).1 tid).from_ = (dataOf s tid).from_ ∧
      (dataOf (pop s tid index).1 tid).currentSum = (dataOf s tid).currentSum ∧
      ∀ t, (dataOf (pop s tid index).1 t).currentCheck = (dataOf s t).currentCheck) := by
  constructor
  · rw [pop_result]
    by_cases h0 : 0 ≤ index
    · have hconv := toSizeT_of_nonneg index h0 hhi
      rw [hconv]
      by_cases hlt : index.toNat < s.queue.length
      · have hA := getElem?_of_lt _ _ hlt
        have hstruct : ∀ a b : Person, a = b ↔ (a.transfer = b.transfer ∧ a.status = b.status) := by
          intro a b; cases a; cases b; simp
        constructor
        · intro h
          right
          refine ⟨_, h0, hA, ?_⟩
          rw [← hstruct]
          intro e
          rw [decide_eq_true hlt, decide_eq_true e] at h
          cases h
        · rintro (h | ⟨p, -, hp, hne⟩)
          · omega
          · rw [hA] at hp
            cases hp
            rw [← hstruct] at hne
            rw [decide_eq_false hne, Bool.and_false]
      · constructor
        · intro _; left; right; omega
        · intro _; rw [decide_eq_false hlt, Bool.false_and]
    · have hneg := toSizeT_of_neg index (by omega) hlo
      constructor
      · intro _; left; left; omega
      · intro _
        have : ¬ toSizeT index < s.queue.length := by omega
        rw [decide_eq_false this, Bool.false_and]
  · intro h
    refine ⟨?_, ?_, ?_, fun t => pop_currentCheck s tid index t⟩
    · rw [pop_fail_state s tid index h]; rfl
    · rw [pop_fail_state s tid index h]
      simp only [unfreezeWorkStatus, dataOf_proceed, dataOf_getCashBoxData]
      rfl
    · rw [pop_fail_state s tid index h]
      simp only [unfreezeWorkStatus, dataOf_proceed, dataOf_getCashBoxData]
      rfl

/-- Witness of C8: in `staleBooking` (reached by `lostRaceRun`) the order at index 0
(SELL/SMALL) is not the booked SELL/MIDDLE, so `pop 0` fails and leaves the queue as it
was. -/
theorem pop_false_iff_witness :
    (pop staleBooking 0 0).2 = false ∧
      (pop staleBooking 0 0).1.queue = [sellSmall] :=
  have h := pop_false_iff staleBooking 0 0 (by decide) (by decide) (by decide)
  have hf : (pop staleBooking 0 0).2 = false :=
    h.1.2 (Or.inr ⟨sellSmall, by decide, by decide, by decide⟩)
  ⟨hf, (h.2 hf).1⟩

/-- C3, the code at the failing input.  `twoWorkers` is reached by `twoWorkersRun`.
Worker 0 removes index 0 successfully; the cursor of worker 1 was 3 (strictly greater
than 0, on the BUY/SMALL order, its candidate) and is still 3 afterwards, where the
shrunken queue has no element any more: BUY/SMALL is now at index 2, and the next
`checkPerson` of worker 1 returns false. -/
theorem pop_leaves_other_cursor :
    ((Engine.init 5).runScan twoWorkersRun).map Engine.bank = some twoWorkers ∧
    (pop twoWorkers 0 0).2 = true ∧
    (pop twoWorkers 0 0).1.queue = [sellLarge, sellSmall, buySmall] ∧
    (dataOf twoWorkers 1).currentCheck = 3 ∧
    twoWorkers.queue[3]? = some buySmall ∧
    (dataOf (pop twoWorkers 0 0).1 1).currentCheck = 3 ∧
    (pop twoWorkers 0 0).1.queue[3]? = none ∧
    (pop twoWorkers 0 0).1.queue[2]? = some buySmall ∧
    (checkPerson (pop twoWorkers 0 0).1 1).2 = false := by
  decide

/-- The state `staleBooking` is reached by `lostRaceRun`. -/
theorem staleBooking_reached :
    ((Engine.init 5).runScan lostRaceRun).map Engine.bank = some staleBooking := by
  decide

theorem foldl_pushBack_queue (l : List Person) (s : Bank) :
    (l.foldl pushBack s).queue = s.queue ++ l := by
  induction l generalizing s with
  | nil => simp
  | cons p rest ih =>
    rw [List.foldl_cons, ih]
    simp [pushBack, freeze_lock, unfreezeWorkStatus, freezeWorkStatus]

theorem foldl_pushBack_cashBoxData (l : List Person) (s : Bank) :
    (l.foldl pushBack s).cashBoxData = s.cashBoxData := by
  induction l generalizing s with
  | nil => simp
  | cons p rest ih =>
    rw [List.foldl_cons, ih]
    simp [pushBack, freeze_lock, unfreezeWorkStatus, freezeWorkStatus]

/-- Pushing back a sequence of orders one by one appends it to the queue; apart from
the `proceed` flag, which every exclusive section leaves raised, nothing else changes. -/
theorem foldl_pushBack_eq (l : List Person) (s : Bank) :
    l.foldl pushBack s =
      { s with queue := s.queue ++ l, proceed := s.proceed || !l.isEmpty } := by
  induction l generalizing s with
  | nil => simp
  | cons p rest ih =>
    rw [List.foldl_cons, ih]
    simp [pushBack, freeze_lock, unfreezeWorkStatus, freezeWorkStatus]

theorem dataOf_congr (s s' : Bank) (h : s'.cashBoxData = s.cashBoxData) (t : ThreadId) :
    dataOf s' t = dataOf s t := by
  unfold dataOf; rw [h]

/-- C5. The dead-end transition leaves the queue equal to the old queue followed by the
collected orders in collection order, empties the collected sequence, zeroes the running
sum and the cursor, and keeps the target. -/
theorem deadEnd_requeues (s : Bank) (tid : ThreadId) :
    (deadEnd s tid).queue = s.queue ++ (dataOf s tid).from_ ∧
    (dataOf (deadEnd s tid) tid).from_ = [] ∧
    (dataOf (deadEnd s tid) tid).currentSum = 0 ∧
    (dataOf (deadEnd s tid) tid).currentCheck = 0 ∧
    (dataOf (deadEnd s tid) tid).to_ = (dataOf s tid).to_ := by
  have hd : dataOf (List.foldl pushBack s (dataOf s tid).from_) tid = dataOf s tid :=
    dataOf_congr _ _ (foldl_pushBack_cashBoxData _ _) tid
  have hrec : dataOf (deadEnd s tid) tid = (dataOf s tid).reset := by
    unfold deadEnd
    simp only
    rw [hd]
    show dataOf (writeData _ tid _) tid = _
    rw [dataOf_writeData]
    simp
  refine ⟨?_, ?_, ?_, ?_, ?_⟩
  · unfold deadEnd
    simp only [writeData]
    exact foldl_pushBack_queue _ _
  all_goals rw [hrec]; rfl

theorem transferCount_pos (p : Person) : 2 ≤ p.transferCount := by
  unfold Person.transferCount; cases p.transfer <;> simp

theorem transferCount_le_twelve (p : Person) : p.transferCount ≤ 12 := by
  unfold Person.transferCount; cases p.transfer <;> simp

/-- The three quantities 2, 6, 12 form a divisibility chain. -/
theorem transferCount_dvd_of_le (a b : Person) (h : b.transferCount ≤ a.transferCount) :
    b.transferCount ∣ a.transferCount := by
  obtain ⟨ta, sa⟩ := a
  obtain ⟨tb, sb⟩ := b
  cases ta <;> cases tb <;> simp [Person.transferCount] at h ⊢ <;> decide

theorem transferCount_le_of_ord_le (a b : Person) (h : b.transfer.ord ≤ a.transfer.ord) :
    b.transferCount ≤ a.transferCount := by
  obtain ⟨ta, sa⟩ := a
  obtain ⟨tb, sb⟩ := b
  revert h
  cases ta <;> cases tb <;> simp [Transfer.ord, Person.transferCount]

theorem totalCount_nil : totalCount [] = 0 := rfl

theorem totalCount_cons (p : Person) (l : List Person) :
    totalCount (p :: l) = p.transferCount + totalCount l := by
  simp [totalCount]

theorem totalCount_append (l l' : List Person) :
    totalCount (l ++ l') = totalCount l + totalCount l' := by
  simp [totalCount]

theorem totalCount_perm {l l' : List Person} (h : l.Perm l') : totalCount l = totalCount l' := by
  unfold totalCount
  exact (h.map _).sum_eq

/-- The iteration budget `from.size() + 1` never runs out: each iteration advances
`lastPerson`, and an index past the end stops the loop. -/
theorem consumeLoop_fuel (from_ : List Person) (fuel : Nat) (st : Int × Nat)
    (h : from_.length + 1 ≤ fuel + st.2) (hst : st.2 ≤ from_.length) :
    consumeLoop from_ fuel st ≠ LoopResult.outOfFuel := by
  induction fuel generalizing st with
  | zero => omega
  | succ n ih =>
    unfold consumeLoop
    split
    · simp
    · unfold consumeStep
      cases hget : from_[st.2]? with
      | none => simp
      | some p =>
        simp only
        have hlt : st.2 < from_.length := by
          by_contra hge
          rw [List.getElem?_eq_none (by omega)] at hget
          cases hget
        apply ih
        · simp only
          omega
        · simp only
          omega

/-- Exact consumption.  On a suffix `l = from.drop i` that is sorted by quantity
descending, whose quantities all divide the non-negative remainder `r` and sum to at
least `r`, the loop started at `(r, i)` stops after some `k ≤ l.length` iterations with
remainder exactly `0`, every remainder it sees is non-negative, and the `k` consumed
orders sum to `r` while every shorter run of consumed orders sums to less. -/
theorem consumeLoop_exact (from_ : List Person) (l : List Person) :
    ∀ (i : Nat) (r : Int) (fuel : Nat), from_.drop i = l → l.Sorted countGe →
      (∀ x ∈ l, x.transferCount ∣ r) → 0 ≤ r → r ≤ totalCount l → l.length + 1 ≤ fuel →
      ∃ k, k ≤ l.length ∧ consumeLoop from_ fuel (r, i) = LoopResult.done 0 (i + k) ∧
        (∀ x ∈ remainders from_ fuel (r, i), 0 ≤ x) ∧
        totalCount (l.take k) = r ∧ ∀ j, j < k → totalCount (l.take j) < r := by
  induction l with
  | nil =>
    intro i r fuel _ _ _ h0 hle hfuel
    have hr : r = 0 := by
      rw [totalCount_nil] at hle; omega
    subst hr
    obtain ⟨n, rfl⟩ : ∃ n, fuel = n + 1 := ⟨fuel - 1, by omega⟩
    refine ⟨0, Nat.le_refl _, ?_, ?_, rfl, ?_⟩
    · simp [consumeLoop]
    · simp [remainders]
    · intro j hj; omega
  | cons p rest ih =>
    intro i r fuel hdrop hsorted hdvd h0 hle hfuel
    obtain ⟨n, rfl⟩ : ∃ n, fuel = n + 1 := ⟨fuel - 1, by simp at hfuel; omega⟩
    by_cases hr : r = 0
    · subst hr
      refine ⟨0, Nat.zero_le _, ?_, ?_, rfl, ?_⟩
      · simp [consumeLoop]
      · simp [remainders]
      · intro j hj; omega
    · have hget : from_[i]? = some p := by
        have := congrArg List.head? hdrop
        simpa [List.head?_drop] using this
      have hdrop' : from_.drop (i + 1) = rest := by
        have := congrArg List.tail hdrop
        simpa [List.tail_drop] using this
      have hsorted' : rest.Sorted countGe := (List.sorted_cons.1 hsorted).2
      have hp_dvd : p.transferCount ∣ r := hdvd p (List.mem_cons_self _ _)
      have hp_le : p.transferCount ≤ r := Int.le_of_dvd (by omega) hp_dvd
      have hdvd' : ∀ x ∈ rest, x.transferCount ∣ r - p.transferCount := by
        intro x hx
        have h1 : x.transferCount ∣ p.transferCount :=
          transferCount_dvd_of_le p x ((List.sorted_cons.1 hsorted).1 x hx)
        exact Int.dvd_sub (hdvd x (List.mem_cons_of_mem _ hx)) h1
      have hle' : r - p.transferCount ≤ totalCount rest := by
        rw [totalCount_cons] at hle; omega
      obtain ⟨k, hk, hloop, hrem, hsum, hmin⟩ :=
        ih (i + 1) (r - p.transferCount) n hdrop' hsorted' hdvd' (by omega) hle'
          (by simp at hfuel ⊢; omega)
      refine ⟨k + 1, by simp; omega, ?_, ?_, ?_, ?_⟩
      · rw [consumeLoop]
        simp only [hr, if_false, consumeStep, hget]
        rw [hloop]
        congr 1
        omega
      · intro x hx
        rw [remainders] at hx
        simp only [hr, if_false, consumeStep, hget, List.mem_cons] at hx
        rcases hx with rfl | hx
        · exact h0
        · exact hrem x hx
      · rw [List.take_succ_cons, totalCount_cons, hsum]; omega
      · intro j hj
        cases j with
        | zero =>
          rw [List.take_zero, totalCount_nil]
          have := transferCount_pos p
          omega
        | succ j =>
          rw [List.take_succ_cons, totalCount_cons]
          have := hmin j (by omega)
          omega

theorem length_sortByCount (l : List Person) : (sortByCount l).length = l.length :=
  List.length_insertionSort _ _

theorem sortByCount_perm (l : List Person) : (sortByCount l).Perm l :=
  List.perm_insertionSort _ _

theorem sortByCount_sorted (l : List Person) : (sortByCount l).Sorted countGe :=
  List.sorted_insertionSort _ _

/-- State reached by `complete` when its loop stops with `lastPerson = k`: the orders of
the sorted sequence from position `k` on are appended to the queue, the record is reset
and the served counter is incremented. -/
theorem complete_of_done (s : Bank) (tid : ThreadId) (r : Int) (k : Nat)
    (h : consumeLoop (sortByCount (dataOf s tid).from_) ((dataOf s tid).from_.length + 1)
      ((dataOf s tid).to_.transferCount, 0) = LoopResult.done r k) :
    ∃ s', complete s tid = some s' ∧
      s'.queue = s.queue ++ (sortByCount (dataOf s tid).from_).drop k ∧
      (dataOf s' tid).from_ = [] ∧ (dataOf s' tid).currentSum = 0 ∧
      (dataOf s' tid).currentCheck = 0 ∧ s'.served = s.served + 1 ∧
      s'.canceled = s.canceled ∧
      ∀ t, t ≠ tid → dataOf s' t = dataOf s t := by
  unfold complete
  simp only [getCashBoxData, length_sortByCount]
  rw [h]
  simp only
  refine ⟨_, rfl, ?_, ?_, ?_, ?_, ?_, ?_, ?_⟩
  · simp only [writeData]
    rw [foldl_pushBack_queue]
  · simp only [writeData, dataOf, lookupData_storeData]
    simp [CashBoxData.reset]
  · simp only [writeData, dataOf, lookupData_storeData]
    simp [CashBoxData.reset]
  · simp only [writeData, dataOf, lookupData_storeData]
    simp [CashBoxData.reset]
  · simp only [writeData, foldl_pushBack_eq]
  · simp only [writeData, foldl_pushBack_eq]
  · intro t ht
    simp only [writeData, dataOf, lookupData_storeData, foldl_pushBack_eq, if_neg ht]

/-- A larger iteration budget does not change the outcome of a loop that stopped. -/
theorem consumeLoop_mono (from_ : List Person) (fuel : Nat) (st : Int × Nat) (r : Int)
    (k : Nat) (h : consumeLoop from_ fuel st = LoopResult.done r k) (n : Nat) :
    consumeLoop from_ (fuel + n) st = LoopResult.done r k := by
  induction fuel generalizing st with
  | zero => simp [consumeLoop] at h
  | succ m ih =>
    rw [Nat.add_right_comm, consumeLoop]
    rw [consumeLoop] at h
    split
    · next h0 => rw [if_pos h0] at h; exact h
    · next h0 =>
      rw [if_neg h0] at h
      cases hstep : consumeStep from_ st with
      | none => rw [hstep] at h; cases h
      | some st' =>
        rw [hstep] at h
        exact ih st' h

/-- Exact consumption on the sorted collected sequence of a worker record whose orders
all have a size class at most the target's and whose total quantity covers the target. -/
theorem sorted_exact (d : CashBoxData)
    (hsize : ∀ p ∈ d.from_, p.transfer.ord ≤ d.to_.transfer.ord)
    (htotal : d.to_.transferCount ≤ totalCount d.from_) :
    ∃ k, k ≤ d.from_.length ∧
      consumeLoop (sortByCount d.from_) (d.from_.length + 1) (d.to_.transferCount, 0)
        = LoopResult.done 0 k ∧
      (∀ x ∈ remainders (sortByCount d.from_) (d.from_.length + 1) (d.to_.transferCount, 0),
        0 ≤ x) ∧
      totalCount ((sortByCount d.from_).take k) = d.to_.transferCount ∧
      ∀ j, j < k → totalCount ((sortByCount d.from_).take j) < d.to_.transferCount := by
  have hdvd : ∀ x ∈ sortByCount d.from_, x.transferCount ∣ d.to_.transferCount := by
    intro x hx
    have hx' : x ∈ d.from_ := (sortByCount_perm d.from_).mem_iff.1 hx
    exact transferCount_dvd_of_le _ _ (transferCount_le_of_ord_le _ _ (hsize x hx'))
  have h0 : 0 ≤ d.to_.transferCount := by
    have := transferCount_pos d.to_; omega
  have htot : d.to_.transferCount ≤ totalCount (sortByCount d.from_) := by
    rw [totalCount_perm (sortByCount_perm d.from_)]; exact htotal
  obtain ⟨k, hk, hloop, hrem, hsum, hmin⟩ :=
    consumeLoop_exact (sortByCount d.from_) (sortByCount d.from_) 0 d.to_.transferCount
      (d.from_.length + 1) (List.drop_zero _) (sortByCount_sorted _) hdvd h0 htot
      (by rw [length_sortByCount])
  rw [length_sortByCount] at hk
  rw [Nat.zero_add] at hloop
  exact ⟨k, hk, hloop, hrem, hsum, hmin⟩

/-- C10. When every collected order has a size class at most the target's and the
collected quantities sum to at least the target quantity, the consumption loop of
`complete` (over the collected sequence sorted by quantity descending) stops with
remainder exactly 0 after at most `length(collected)` iterations: it neither runs out of
its budget (nor of any larger one) nor reads past the end, every value of the remainder
is non-negative, the consumed orders sum to exactly the target quantity, and `complete`
returns a state. -/
theorem complete_loop_exact (s : Bank) (tid : ThreadId)
    (hsize : ∀ p ∈ (dataOf s tid).from_, p.transfer.ord ≤ (dataOf s tid).to_.transfer.ord)
    (htotal : (dataOf s tid).to_.transferCount ≤ totalCount (dataOf s tid).from_) :
    ∃ k, k ≤ (dataOf s tid).from_.length ∧
      consumeLoop (sortByCount (dataOf s tid).from_) ((dataOf s tid).from_.length + 1)
        ((dataOf s tid).to_.transferCount, 0) = LoopResult.done 0 k ∧
      (∀ x ∈ remainders (sortByCount (dataOf s tid).from_) ((dataOf s tid).from_.length + 1)
          ((dataOf s tid).to_.transferCount, 0), 0 ≤ x) ∧
      (∀ n, consumeLoop (sortByCount (dataOf s tid).from_)
          ((dataOf s tid).from_.length + 1 + n) ((dataOf s tid).to_.transferCount, 0)
        = LoopResult.done 0 k) ∧
      totalCount ((sortByCount (dataOf s tid).from_).take k)
        = (dataOf s tid).to_.transferCount ∧
      (complete s tid).isSome = true := by
  obtain ⟨k, hk, hloop, hrem, hsum, -⟩ := sorted_exact (dataOf s tid) hsize htotal
  obtain ⟨s', hs', -⟩ := complete_of_done s tid 0 k hloop
  exact ⟨k, hk, hloop, hrem, fun n => consumeLoop_mono _ _ _ _ _ hloop n, hsum,
    by rw [hs']; rfl⟩

/-- Witness of C10: in `readyToComplete` (target 12, collected 2, 2, 2, 2, 6) the loop
consumes 6, 2, 2, 2 and `complete` returns a state. -/
theorem complete_loop_exact_witness :
    (∀ p ∈ (dataOf readyToComplete 0).from_,
        p.transfer.ord ≤ (dataOf readyToComplete 0).to_.transfer.ord) ∧
      (dataOf readyToComplete 0).to_.transferCount
        ≤ totalCount (dataOf readyToComplete 0).from_ ∧
      ∃ k, k ≤ 5 ∧
        consumeLoop (sortByCount (dataOf readyToComplete 0).from_) 6 (12, 0)
          = LoopResult.done 0 k ∧
        (complete readyToComplete 0).isSome = true :=
  ⟨by decide, by decide,
    (complete_loop_exact readyToComplete 0 (by decide) (by decide)).elim
      fun k h => ⟨k, h.1, h.2.1, h.2.2.2.2.2⟩⟩

/-- C2. When every collected order is a candidate for the target (opposite direction,
size class at most the target's) and the collected quantities sum to at least the
target quantity, `complete` sorts the collected sequence by quantity descending (a
permutation of it, no later order larger than an earlier one), consumes its first `k`
orders and pushes the others back; the consumed orders sum to at least the target
quantity, and without the last of them to less. -/
theorem complete_minimal_cover (s : Bank) (tid : ThreadId)
    (hcand : ∀ p ∈ (dataOf s tid).from_,
      p.status ≠ (dataOf s tid).to_.status ∧
        p.transfer.ord ≤ (dataOf s tid).to_.transfer.ord)
    (htotal : (dataOf s tid).to_.transferCount ≤ totalCount (dataOf s tid).from_) :
    (sortByCount (dataOf s tid).from_).Perm (dataOf s tid).from_ ∧
    (sortByCount (dataOf s tid).from_).Sorted (fun a b => b.transferCount ≤ a.transferCount) ∧
    ∃ k s', 1 ≤ k ∧ k ≤ (dataOf s tid).from_.length ∧
      complete s tid = some s' ∧
      s'.queue = s.queue ++ (sortByCount (dataOf s tid).from_).drop k ∧
      (dataOf s tid).to_.transferCount
        ≤ totalCount ((sortByCount (dataOf s tid).from_).take k) ∧
      totalCount ((sortByCount (dataOf s tid).from_).take (k - 1))
        < (dataOf s tid).to_.transferCount := by
  refine ⟨sortByCount_perm _, sortByCount_sorted _, ?_⟩
  obtain ⟨k, hk, hloop, -, hsum, hmin⟩ :=
    sorted_exact (dataOf s tid) (fun p hp => (hcand p hp).2) htotal
  obtain ⟨s', hs', hq, -⟩ := complete_of_done s tid 0 k hloop
  have hpos : 1 ≤ k := by
    rcases Nat.eq_zero_or_pos k with h0 | h0
    · exfalso
      rw [h0, List.take_zero, totalCount_nil] at hsum
      have := transferCount_pos (dataOf s tid).to_
      omega
    · exact h0
  exact ⟨k, s', hpos, hk, hs', hq, by rw [hsum], hmin (k - 1) (by omega)⟩

/-- Witness of C2: `readyToComplete` (target BUY/LARGE, collected four SELL/SMALL and one
SELL/MIDDLE); the queue afterwards is the old queue followed by the one order left
over. -/
theorem complete_minimal_cover_witness :
    (∀ p ∈ (dataOf readyToComplete 0).from_,
        p.status ≠ (dataOf readyToComplete 0).to_.status ∧
          p.transfer.ord ≤ (dataOf readyToComplete 0).to_.transfer.ord) ∧
      (dataOf readyToComplete 0).to_.transferCount
        ≤ totalCount (dataOf readyToComplete 0).from_ ∧
      ∃ k s', 1 ≤ k ∧ complete readyToComplete 0 = some s' ∧
        s'.queue = readyToComplete.queue
          ++ (sortByCount (dataOf readyToComplete 0).from_).drop k :=
  ⟨by decide, by decide,
    (complete_minimal_cover readyToComplete 0 (by decide) (by decide)).2.2.elim
      fun k h => h.elim fun s' h' => ⟨k, s', h'.1, h'.2.2.1, h'.2.2.2.1⟩⟩

/-- C4, the code at the failing input.  `scanStart` is a scanning state (running, sum 0
below 12, cursor 0 inside the queue) whose order at the cursor is a candidate.  The
iteration removes it (queue, collected and sum change as claimed), but the cursor is 1
afterwards, not 0: the SELL/SMALL order that shifted into position 0 is not inspected,
the next `checkPerson` books the SELL/MIDDLE order at index 1. -/
theorem loopBody_skips_after_removal :
    scanStart.workday = true ∧
    (dataOf scanStart 0).currentSum < (dataOf scanStart 0).to_.transferCount ∧
    (dataOf scanStart 0).currentCheck = 0 ∧
    (checkPerson scanStart 0).2 = true ∧
    (pop (checkPerson scanStart 0).1 0 0).2 = true ∧
    loopBody scanStart 0 = Iteration.next (loopTail scanStart 0) ∧
    (loopTail scanStart 0).queue = [sellSmall, sellMiddle] ∧
    (dataOf (loopTail scanStart 0) 0).from_ = [sellSmall] ∧
    (dataOf (loopTail scanStart 0) 0).currentSum = 2 ∧
    (dataOf (loopTail scanStart 0) 0).currentCheck = 1 ∧
    (dataOf (checkPerson (loopTail scanStart 0) 0).1 0).booking = sellMiddle := by
  decide

/-- C7, the code on the scenario.  The worker books BUY/LARGE; the first iteration takes
SELL/SMALL (sum 2) and moves the cursor to 1; the second iteration takes SELL/MIDDLE at
index 1 (sum 8, not 4), skipping the second SELL/SMALL; the third iteration finds the
cursor 2 beyond the queue `[SELL/SMALL]` (not empty) and dead-ends with collected
`[SELL/SMALL, SELL/MIDDLE]` (two orders, not three).  The parked state has the queue
`[SELL/SMALL, SELL/SMALL, SELL/MIDDLE]`, served 0 and dead-end counter 1. -/
theorem scenario_run :
    (bookFirst scenario 0).2 = true ∧
    (bookFirst scenario 0).1 = scanStart ∧
    (dataOf scanStart 0).to_ = buyLarge ∧
    (dataOf scanStart 0).to_.transferCount = 12 ∧
    loopBody scanStart 0 = Iteration.next (loopTail scanStart 0) ∧
    (loopTail scanStart 0).queue = [sellSmall, sellMiddle] ∧
    (dataOf (loopTail scanStart 0) 0).from_ = [sellSmall] ∧
    (dataOf (loopTail scanStart 0) 0).currentSum = 2 ∧
    loopBody (loopTail scanStart 0) 0
      = Iteration.next (loopTail (loopTail scanStart 0) 0) ∧
    (loopTail (loopTail scanStart 0) 0).queue = [sellSmall] ∧
    (dataOf (loopTail (loopTail scanStart 0) 0) 0).from_ = [sellSmall, sellMiddle] ∧
    (dataOf (loopTail (loopTail scanStart 0) 0) 0).currentSum = 8 ∧
    (dataOf (loopTail (loopTail scanStart 0) 0) 0).currentCheck = 2 ∧
    loopBody (loopTail (loopTail scanStart 0) 0) 0
      = Iteration.parked (deadEnd (loopTail (loopTail scanStart 0) 0) 0) ∧
    continueCashBoxJob_body 0 3 scenario
      = JobResult.parked (deadEnd (loopTail (loopTail scanStart 0) 0) 0) ∧
    (deadEnd (loopTail (loopTail scanStart 0) 0) 0).queue
      = [sellSmall, sellSmall, sellMiddle] ∧
    (deadEnd (loopTail (loopTail scanStart 0) 0) 0).served = 0 ∧
    (deadEnd (loopTail (loopTail scanStart 0) 0) 0).deadEndCounter = 1 := by
  decide

/-- A larger iteration budget does not change the outcome of the scenario. -/
theorem scenario_run_fuel (fuel : Nat) :
    continueCashBoxJob_body 0 (fuel + 3) scenario
      = JobResult.parked (deadEnd (loopTail (loopTail scanStart 0) 0) 0) := by
  rfl

theorem storeData_storeData (m : List (ThreadId × CashBoxData)) (t : ThreadId)
    (d d' : CashBoxData) : storeData (storeData m t d) t d' = storeData m t d' := by
  induction m with
  | nil => simp [storeData]
  | cons e rest ih =>
    obtain ⟨k, v⟩ := e
    by_cases hk : k = t
    · simp [storeData, hk]
    · simp [storeData, hk, ih]

theorem length_storeData_ge (m : List (ThreadId × CashBoxData)) (t : ThreadId)
    (d : CashBoxData) : m.length ≤ (storeData m t d).length := by
  induction m with
  | nil => simp
  | cons e rest ih =>
    obtain ⟨k, v⟩ := e
    by_cases hk : k = t
    · simp [storeData, hk]
    · simp [storeData, hk, ih]

/-- Writing a record changes a sum over the records by the difference between the new
and the old value of the summand (a missing record counts as default-constructed). -/
theorem sumOver_storeData (f : CashBoxData → Nat) (hf : f CashBoxData.init = 0)
    (m : List (ThreadId × CashBoxData)) (t : ThreadId) (d : CashBoxData) :
    sumOver f (storeData m t d) + f ((lookupData m t).getD CashBoxData.init)
      = sumOver f m + f d := by
  induction m with
  | nil => simp [storeData, lookupData, sumOver, hf]
  | cons e rest ih =>
    obtain ⟨k, v⟩ := e
    by_cases hk : k = t
    · simp [storeData, lookupData, sumOver, hk]
      omega
    · simp only [storeData, lookupData, sumOver, hk, if_false, List.map_cons,
        List.sum_cons] at ih ⊢
      omega

theorem sumOver_writeData (f : CashBoxData → Nat) (hf : f CashBoxData.init = 0)
    (s : Bank) (t : ThreadId) (d : CashBoxData) :
    sumOver f (writeData s t d).cashBoxData + f (dataOf s t)
      = sumOver f s.cashBoxData + f d :=
  sumOver_storeData f hf s.cashBoxData t d

/-- State after a successful `pop`: the order at `index` has moved from the queue to the
end of the collected sequence of the caller, and its quantity has been added to the
running sum of the caller. -/
theorem pop_success_eq (s : Bank) (tid : ThreadId) (index : Int)
    (h : (pop s tid index).2 = true) :
    (pop s tid index).1 =
      { s with
        proceed := true,
        queue := s.queue.eraseIdx (toSizeT index),
        cashBoxData := storeData s.cashBoxData tid
          { dataOf s tid with
            from_ := (dataOf s tid).from_ ++ [s.queue.getD (toSizeT index) default],
            currentSum := (dataOf s tid).currentSum +
              (s.queue.getD (toSizeT index) default).transferCount } } := by
  unfold pop freeze_lock at h ⊢
  simp only at h ⊢
  split at h
  · cases h
  · next h1 =>
    rw [if_neg h1]
    split at h
    · cases h
    · next h2 =>
      rw [if_neg h2]
      simp [updateCashBoxesData_eq, unfreezeWorkStatus, writeData, getCashBoxData,
        freezeWorkStatus, storeData_storeData, dataOf]

/-- State after a failing `pop`. -/
theorem pop_fail_eq (s : Bank) (tid : ThreadId) (index : Int)
    (h : (pop s tid index).2 = false) :
    (pop s tid index).1 =
      { s with
        proceed := true,
        cashBoxData := storeData s.cashBoxData tid (dataOf s tid) } := by
  rw [pop_fail_state s tid index h]
  rfl

theorem bookFirst_nil (s : Bank) (tid : ThreadId) (h : s.queue = []) :
    bookFirst s tid = ({ s with proceed := true }, false) := by
  unfold bookFirst freeze_lock
  simp [freezeWorkStatus, unfreezeWorkStatus, h]

theorem bookFirst_cons (s : Bank) (tid : ThreadId) (first : Person) (rest : List Person)
    (h : s.queue = first :: rest) :
    bookFirst s tid =
      ({ s with
          proceed := true,
          queue := rest,
          cashBoxData := storeData s.cashBoxData tid { dataOf s tid with to_ := first } },
        true) := by
  unfold bookFirst freeze_lock
  simp [freezeWorkStatus, unfreezeWorkStatus, h, getCashBoxData, writeData,
    storeData_storeData, dataOf]

theorem deadEnd_eq (s : Bank) (tid : ThreadId) :
    deadEnd s tid =
      { s with
        queue := s.queue ++ (dataOf s tid).from_,
        proceed := s.proceed || !(dataOf s tid).from_.isEmpty,
        cashBoxData := storeData s.cashBoxData tid (dataOf s tid).reset,
        deadEndCounter := s.deadEndCounter + 1,
        needUpdate := true } := by
  unfold deadEnd
  simp [foldl_pushBack_eq, writeData, dataOf]

theorem complete_eq (s : Bank) (tid : ThreadId) (r : Int) (k : Nat)
    (h : consumeLoop (sortByCount (dataOf s tid).from_) ((dataOf s tid).from_.length + 1)
      ((dataOf s tid).to_.transferCount, 0) = LoopResult.done r k) :
    complete s tid = some
      { s with
        queue := s.queue ++ (sortByCount (dataOf s tid).from_).drop k,
        proceed := s.proceed || !((sortByCount (dataOf s tid).from_).drop k).isEmpty,
        cashBoxData := storeData s.cashBoxData tid (dataOf s tid).reset,
        served := s.served + 1 } := by
  unfold complete
  simp only [getCashBoxData, length_sortByCount]
  rw [h]
  simp [foldl_pushBack_eq, writeData, dataOf, storeData_storeData, lookupData_storeData,
    CashBoxData.reset]

/-- Where the consumption loop stops: not before its start index, within the sequence
when it started within it, and after at least one iteration when it started with a
non-zero remainder. -/
theorem consumeLoop_done_bounds (from_ : List Person) (fuel : Nat) (st : Int × Nat)
    (r : Int) (k : Nat) (h : consumeLoop from_ fuel st = LoopResult.done r k) :
    st.2 ≤ k ∧ (st.2 ≤ from_.length → k ≤ from_.length) ∧ (st.1 ≠ 0 → st.2 < k) := by
  induction fuel generalizing st with
  | zero => simp [consumeLoop] at h
  | succ n ih =>
    rw [consumeLoop] at h
    split at h
    · next h0 =>
      cases h
      exact ⟨Nat.le_refl _, fun hle => hle, fun hne => absurd h0 hne⟩
    · unfold consumeStep at h
      cases hget : from_[st.2]? with
      | none => simp [hget] at h
      | some p =>
        simp only [hget] at h
        have hlt : st.2 < from_.length := by
          by_contra hge
          rw [List.getElem?_eq_none (by omega)] at hget
          cases hget
        obtain ⟨h1, h2, -⟩ := ih _ h
        simp only at h1 h2
        exact ⟨by omega, fun _ => h2 (by omega), fun _ => by omega⟩

theorem checkPerson_state (s : Bank) (tid : ThreadId) :
    (checkPerson s tid).1 = s ∨
      ∃ b, (checkPerson s tid).1 = writeData s tid { dataOf s tid with booking := b } := by
  unfold checkPerson
  simp only
  split
  · exact Or.inl rfl
  · split
    · exact Or.inl rfl
    · split
      · exact Or.inl rfl
      · exact Or.inr ⟨_, rfl⟩

theorem dataOf_of_lookup_none (s : Bank) (tid : ThreadId)
    (h : lookupData s.cashBoxData tid = none) : dataOf s tid = CashBoxData.init := by
  unfold dataOf; rw [h]; rfl

/-- Outcome of `complete` in terms of the outcome of its loop. -/
theorem complete_cases (s : Bank) (tid : ThreadId) (s' : Bank) (h : complete s tid = some s') :
    ∃ r k, consumeLoop (sortByCount (dataOf s tid).from_) ((dataOf s tid).from_.length + 1)
        ((dataOf s tid).to_.transferCount, 0) = LoopResult.done r k ∧
      consumedCount (dataOf s tid) = k ∧ 1 ≤ k ∧ k ≤ (dataOf s tid).from_.length := by
  cases hloop : consumeLoop (sortByCount (dataOf s tid).from_) ((dataOf s tid).from_.length + 1)
      ((dataOf s tid).to_.transferCount, 0) with
  | done r k =>
    have hb := consumeLoop_done_bounds _ _ _ _ _ hloop
    have hpos := transferCount_pos (dataOf s tid).to_
    refine ⟨r, k, rfl, ?_, ?_, ?_⟩
    · unfold consumedCount; rw [hloop]
    · exact hb.2.2 (by simp only; omega)
    · have := hb.2.1 (Nat.zero_le _)
      rwa [length_sortByCount] at this
  | outOfRange =>
    exfalso
    unfold complete at h
    simp only [getCashBoxData, length_sortByCount] at h
    rw [hloop] at h
    cases h
  | outOfFuel =>
    exfalso
    unfold complete at h
    simp only [getCashBoxData, length_sortByCount] at h
    rw [hloop] at h
    cases h

/-- Every atomic step keeps the books balanced: what it adds to the accounted orders is
what it adds to the generated orders. -/
theorem apply_accounted (e e' : Engine) (a : Action) (h : e.apply a = some e') :
    e'.accounted + e.generated = e.accounted + e'.generated := by
  cases a with
  | beginWorkday => simp [Engine.apply] at h; subst h; rfl
  | endWorkday => simp [Engine.apply] at h; subst h; rfl
  | register tid =>
    simp only [Engine.apply] at h
    split at h
    · cases h
    · next hfresh =>
      cases h
      have hnone : lookupData e.bank.cashBoxData tid = none := by
        cases hl : lookupData e.bank.cashBoxData tid with
        | none => rfl
        | some d => rw [hl] at hfresh; simp at hfresh
      have key : sumOver (fun d => d.from_.length)
            (storeData e.bank.cashBoxData tid CashBoxData.init)
          = sumOver (fun d => d.from_.length) e.bank.cashBoxData := by
        have := sumOver_storeData (fun d => d.from_.length) rfl e.bank.cashBoxData tid
          CashBoxData.init
        rw [hnone] at this
        exact this
      simp only [Engine.accounted, heldOrders, beginCashBoxJob, writeData, key]
  | generate person =>
    simp only [Engine.apply] at h
    cases h
    simp only [Engine.accounted, heldOrders, continueWorkday_body]
    split
    · simp [pushBack, freeze_lock, freezeWorkStatus, unfreezeWorkStatus]
      omega
    · rfl
  | bookFirst tid =>
    simp only [Engine.apply] at h
    cases h
    cases hq : e.bank.queue with
    | nil =>
      rw [bookFirst_nil _ _ hq]
      simp [Engine.accounted, heldOrders, hq]
    | cons first rest =>
      rw [bookFirst_cons _ _ first rest hq]
      have := sumOver_storeData (fun d => d.from_.length) rfl e.bank.cashBoxData tid
        { dataOf e.bank tid with to_ := first }
      simp only [Engine.accounted, heldOrders, hq, List.length_cons, if_true]
      simp only [dataOf] at this ⊢
      omega
  | checkPerson tid =>
    simp only [Engine.apply] at h
    cases h
    rcases checkPerson_state e.bank tid with hs | ⟨b, hs⟩
    · simp [Engine.accounted, heldOrders, hs]
    · have := sumOver_writeData (fun d => d.from_.length) rfl e.bank tid
        { dataOf e.bank tid with booking := b }
      simp only [Engine.accounted, heldOrders, hs]
      simp only [writeData] at this ⊢
      omega
  | pop tid =>
    simp only [Engine.apply] at h
    cases h
    cases hr : (pop e.bank tid (dataOf e.bank tid).currentCheck).2 with
    | false =>
      have := sumOver_storeData (fun d => d.from_.length) rfl e.bank.cashBoxData tid
        (dataOf e.bank tid)
      simp only [Engine.accounted, heldOrders, pop_fail_eq _ _ _ hr]
      simp only [dataOf] at this ⊢
      omega
    | true =>
      have hlt := (pop_success_state _ _ _ hr).1
      have := sumOver_storeData (fun d => d.from_.length) rfl e.bank.cashBoxData tid
        { dataOf e.bank tid with
          from_ := (dataOf e.bank tid).from_ ++
            [e.bank.queue.getD (toSizeT (dataOf e.bank tid).currentCheck) default],
          currentSum := (dataOf e.bank tid).currentSum +
            (e.bank.queue.getD (toSizeT (dataOf e.bank tid).currentCheck)
              default).transferCount }
      simp only [Engine.accounted, heldOrders, pop_success_eq _ _ _ hr,
        List.length_eraseIdx, hlt, if_true]
      simp only [dataOf, List.length_append, List.length_singleton] at this ⊢
      omega
  | advance tid =>
    simp only [Engine.apply] at h
    cases h
    have := sumOver_writeData (fun d => d.from_.length) rfl e.bank tid
      { dataOf e.bank tid with currentCheck := (dataOf e.bank tid).currentCheck + 1 }
    simp only [Engine.accounted, heldOrders, advance]
    simp only [writeData] at this ⊢
    omega
  | deadEnd tid =>
    simp only [Engine.apply] at h
    cases h
    have := sumOver_storeData (fun d => d.from_.length) rfl e.bank.cashBoxData tid
      (dataOf e.bank tid).reset
    simp only [Engine.accounted, heldOrders, deadEnd_eq, List.length_append]
    simp only [dataOf, CashBoxData.reset, List.length_nil] at this ⊢
    omega
  | wake tid => simp [Engine.apply] at h; subst h; rfl
  | complete tid =>
    simp only [Engine.apply] at h
    cases hc : complete e.bank tid with
    | none => rw [hc] at h; cases h
    | some s' =>
      rw [hc] at h
      cases h
      obtain ⟨r, k, hloop, hk, -, hle⟩ := complete_cases _ _ _ hc
      rw [complete_eq _ _ r k hloop] at hc
      cases hc
      have := sumOver_storeData (fun d => d.from_.length) rfl e.bank.cashBoxData tid
        (dataOf e.bank tid).reset
      simp only [Engine.accounted, heldOrders, hk, List.length_append, List.length_drop,
        length_sortByCount]
      simp only [dataOf, CashBoxData.reset, List.length_nil] at this hle ⊢
      omega
  | clear =>
    simp only [Engine.apply] at h
    cases h
    simp [Engine.accounted, heldOrders, clear, freeze_lock, freezeWorkStatus,
      unfreezeWorkStatus]
    omega

/-- A property that holds initially and is kept by every atomic step holds after every
sequence of steps. -/
theorem run_invariant (P : Engine → Prop)
    (hstep : ∀ e a e', P e → e.apply a = some e' → P e') :
    ∀ (acts : List Action) (e e' : Engine), P e → e.run acts = some e' → P e' := by
  intro acts
  induction acts with
  | nil =>
    intro e e' hP h
    simp only [Engine.run] at h
    cases h
    exact hP
  | cons a rest ih =>
    intro e e' hP h
    simp only [Engine.run] at h
    cases ha : e.apply a with
    | none => rw [ha] at h; cases h
    | some e1 =>
      rw [ha] at h
      exact ih e1 e' (hstep e a e1 hP ha) h

/-- C6. No lost orders: in every state reached from the empty engine by a sequence of
atomic steps, the orders in the queue, the orders held in collected sequences, the
orders consumed into matches (booked targets and consumed orders) and the orders
canceled by `clear` add up to the number of orders generated.  In particular a
successful `pop` moves exactly one order from the queue to the end of the collected
sequence, `deadEnd` returns every collected order to the queue, and `complete` returns
every collected order beyond the consumed ones to the queue. -/
theorem no_lost_orders (queueOpacity : Int) (acts : List Action) (e : Engine)
    (h : (Engine.init queueOpacity).run acts = some e) :
    e.bank.queue.length + heldOrders e.bank + e.matched + e.bank.canceled = e.generated ∧
    (∀ (s : Bank) (tid : ThreadId) (index : Int), (pop s tid index).2 = true →
      (pop s tid index).1.queue = s.queue.eraseIdx (toSizeT index) ∧
      (pop s tid index).1.queue.length + 1 = s.queue.length ∧
      (dataOf (pop s tid index).1 tid).from_
        = (dataOf s tid).from_ ++ [s.queue.getD (toSizeT index) default]) ∧
    (∀ (s : Bank) (tid : ThreadId),
      (deadEnd s tid).queue = s.queue ++ (dataOf s tid).from_ ∧
      (dataOf (deadEnd s tid) tid).from_ = []) ∧
    (∀ (s s' : Bank) (tid : ThreadId), complete s tid = some s' →
      s'.queue = s.queue
        ++ (sortByCount (dataOf s tid).from_).drop (consumedCount (dataOf s tid)) ∧
      (dataOf s' tid).from_ = []) := by
  refine ⟨?_, ?_, ?_, ?_⟩
  · have hinv := run_invariant (fun x => x.accounted = x.generated)
      (fun e1 a e2 hP ha => by
        have := apply_accounted e1 e2 a ha
        simp only at hP ⊢
        omega)
      acts (Engine.init queueOpacity) e rfl h
    exact hinv
  · intro s tid index hr
    have hs := pop_success_state s tid index hr
    refine ⟨hs.2.2.1, ?_, ?_⟩
    · rw [hs.2.2.1, List.length_eraseIdx, if_pos hs.1]
      have := hs.1
      omega
    · rw [hs.2.2.2 tid, if_pos rfl]
  · intro s tid
    rw [deadEnd_eq]
    refine ⟨rfl, ?_⟩
    simp [dataOf, lookupData_storeData, CashBoxData.reset]
  · intro s s' tid hc
    obtain ⟨r, k, hloop, hk, -, -⟩ := complete_cases _ _ _ hc
    rw [complete_eq _ _ r k hloop] at hc
    cases hc
    refine ⟨by rw [hk], ?_⟩
    simp [dataOf, lookupData_storeData, CashBoxData.reset]

/-- Witness of C6: `sampleRun` ends in `sampleEnd`, where 0 orders are queued, 0 held,
3 matched and 2 canceled, out of 5 generated. -/
theorem no_lost_orders_witness :
    (Engine.init 5).run sampleRun = some sampleEnd ∧
      sampleEnd.bank.queue.length + heldOrders sampleEnd.bank + sampleEnd.matched
        + sampleEnd.bank.canceled = sampleEnd.generated :=
  ⟨by decide, (no_lost_orders 5 sampleRun sampleEnd (by decide)).1⟩

theorem two_mul_length_le_totalCount (l : List Person) :
    2 * (l.length : Int) ≤ totalCount l := by
  induction l with
  | nil => simp [totalCount]
  | cons p rest ih =>
    rw [totalCount_cons, List.length_cons]
    have := transferCount_pos p
    push_cast
    omega

theorem sumOver_le (m : List (ThreadId × CashBoxData)) :
    sumOver (fun d => min d.from_.length 5) m ≤ 5 * m.length := by
  induction m with
  | nil => simp [sumOver]
  | cons w rest ih =>
    simp only [sumOver, List.map_cons, List.sum_cons, List.length_cons] at ih ⊢
    omega

theorem dataOf_of_storeData (s s' : Bank) (tid t : ThreadId) (d' : CashBoxData)
    (hmap : s'.cashBoxData = storeData s.cashBoxData tid d') :
    dataOf s' t = if t = tid then d' else dataOf s t := by
  unfold dataOf
  rw [hmap, lookupData_storeData]
  split <;> rfl

/-- A step that writes only the record of `tid` keeps the invariant when the new record
is consistent and the queue does not grow by more than the capped count of held orders
shrinks. -/
theorem inv_update (cap : Int) (e : Engine) (bank' : Bank) (tid : ThreadId)
    (d' : CashBoxData) (g' m' : Nat)
    (hmap : bank'.cashBoxData = storeData e.bank.cashBoxData tid d')
    (hcap : bank'.queueOpacity = e.bank.queueOpacity)
    (hsum : d'.currentSum = totalCount d'.from_)
    (hlen : d'.from_.length ≤ 6)
    (hq : bank'.queue.length + min d'.from_.length 5
      ≤ e.bank.queue.length + min (dataOf e.bank tid).from_.length 5)
    (hinv : e.Inv cap) :
    Engine.Inv cap { bank := bank', generated := g', matched := m' } := by
  obtain ⟨h1, h2, h3, h4⟩ := hinv
  refine ⟨by rw [← h1]; exact hcap, ?_, ?_, ?_⟩
  · intro t
    simp only
    rw [dataOf_of_storeData e.bank bank' tid t d' hmap]
    split
    · exact hsum
    · exact h2 t
  · intro t
    simp only
    rw [dataOf_of_storeData e.bank bank' tid t d' hmap]
    split
    · exact hlen
    · exact h3 t
  · have hs := sumOver_storeData (fun d => min d.from_.length 5) rfl e.bank.cashBoxData tid d'
    have hn := length_storeData_ge e.bank.cashBoxData tid d'
    simp only [heldCapped, hmap] at h4 ⊢
    simp only [dataOf] at hq
    omega

/-- A step that leaves the records alone keeps the invariant when it does not lengthen
the queue. -/
theorem inv_frame (cap : Int) (e : Engine) (bank' : Bank) (g' m' : Nat)
    (hmap : bank'.cashBoxData = e.bank.cashBoxData)
    (hcap : bank'.queueOpacity = e.bank.queueOpacity)
    (hq : bank'.queue.length ≤ e.bank.queue.length)
    (hinv : e.Inv cap) :
    Engine.Inv cap { bank := bank', generated := g', matched := m' } := by
  obtain ⟨h1, h2, h3, h4⟩ := hinv
  refine ⟨by rw [← h1]; exact hcap, ?_, ?_, ?_⟩
  · intro t
    simp only [dataOf, hmap]
    exact h2 t
  · intro t
    simp only [dataOf, hmap]
    exact h3 t
  · simp only [heldCapped, hmap] at h4 ⊢
    omega

/-- Inside the scan loop a record holds at most five orders. -/
theorem inScan_length (cap : Int) (e : Engine) (tid : ThreadId) (hinv : e.Inv cap)
    (hg : (dataOf e.bank tid).currentSum < (dataOf e.bank tid).to_.transferCount) :
    (dataOf e.bank tid).from_.length ≤ 5 := by
  have h2 := hinv.2.1 tid
  have h12 := transferCount_le_twelve (dataOf e.bank tid).to_
  have := two_mul_length_le_totalCount (dataOf e.bank tid).from_
  omega

/-- Every guarded atomic step keeps the invariant. -/
theorem apply_inv (cap : Int) (e e' : Engine) (a : Action) (hinv : e.Inv cap)
    (hg : e.inScan a = true) (h : e.apply a = some e') : e'.Inv cap := by
  cases a with
  | beginWorkday =>
    simp only [Engine.apply] at h; cases h
    exact inv_frame cap e _ _ _ rfl rfl (Nat.le_refl _) hinv
  | endWorkday =>
    simp only [Engine.apply] at h; cases h
    exact inv_frame cap e _ _ _ rfl rfl (Nat.le_refl _) hinv
  | register tid =>
    simp only [Engine.apply] at h
    split at h
    · cases h
    · cases h
      exact inv_update cap e _ tid CashBoxData.init _ _ rfl rfl rfl (by simp [CashBoxData.init])
        (by simp [beginCashBoxJob, writeData, CashBoxData.init]) hinv
  | generate person =>
    simp only [Engine.apply] at h; cases h
    by_cases hlt : e.bank.queue.length < toSizeT e.bank.queueOpacity
    · obtain ⟨h1, h2, h3, -⟩ := hinv
      have hb := sumOver_le e.bank.cashBoxData
      refine ⟨?_, ?_, ?_, ?_⟩
      · simp only [continueWorkday_body, if_pos hlt]
        exact h1
      · intro t
        simp only [continueWorkday_body, if_pos hlt]
        exact h2 t
      · intro t
        simp only [continueWorkday_body, if_pos hlt]
        exact h3 t
      · rw [h1] at hlt
        simp only [continueWorkday_body, h1, if_pos hlt, heldCapped, pushBack, freeze_lock,
          freezeWorkStatus, unfreezeWorkStatus, List.length_append, List.length_singleton]
        omega
    · simp only [continueWorkday_body, if_neg hlt]
      exact inv_frame cap e _ _ _ rfl rfl (Nat.le_refl _) hinv
  | bookFirst tid =>
    simp only [Engine.apply] at h; cases h
    cases hq : e.bank.queue with
    | nil =>
      rw [bookFirst_nil _ _ hq]
      exact inv_frame cap e _ _ _ rfl rfl (by simp [hq]) hinv
    | cons first rest =>
      rw [bookFirst_cons _ _ first rest hq]
      exact inv_update cap e _ tid { dataOf e.bank tid with to_ := first } _ _ rfl rfl
        (hinv.2.1 tid) (hinv.2.2.1 tid) (by simp [hq]) hinv
  | checkPerson tid =>
    simp only [Engine.apply] at h; cases h
    rcases checkPerson_state e.bank tid with hs | ⟨b, hs⟩
    · rw [hs]
      exact inv_frame cap e _ _ _ rfl rfl (Nat.le_refl _) hinv
    · rw [hs]
      exact inv_update cap e _ tid { dataOf e.bank tid with booking := b } _ _ rfl rfl
        (hinv.2.1 tid) (hinv.2.2.1 tid) (Nat.le_refl _) hinv
  | pop tid =>
    simp only [Engine.apply] at h; cases h
    have hguard : (dataOf e.bank tid).currentSum < (dataOf e.bank tid).to_.transferCount := by
      simpa [Engine.inScan] using hg
    have hfive := inScan_length cap e tid hinv hguard
    cases hr : (pop e.bank tid (dataOf e.bank tid).currentCheck).2 with
    | false =>
      rw [pop_fail_eq _ _ _ hr]
      exact inv_update cap e _ tid (dataOf e.bank tid) _ _ rfl rfl
        (hinv.2.1 tid) (hinv.2.2.1 tid) (Nat.le_refl _) hinv
    | true =>
      have hlt := (pop_success_state _ _ _ hr).1
      rw [pop_success_eq _ _ _ hr]
      refine inv_update cap e _ tid _ _ _ rfl rfl ?_ ?_ ?_ hinv
      · simp only [totalCount_append, totalCount_cons, totalCount_nil]
        have := hinv.2.1 tid
        omega
      · simp only [List.length_append, List.length_singleton]
        omega
      · simp only [List.length_eraseIdx, if_pos hlt, List.length_append,
          List.length_singleton]
        omega
  | advance tid =>
    simp only [Engine.apply] at h; cases h
    exact inv_update cap e _ tid
      { dataOf e.bank tid with currentCheck := (dataOf e.bank tid).currentCheck + 1 } _ _
      rfl rfl (hinv.2.1 tid) (hinv.2.2.1 tid) (Nat.le_refl _) hinv
  | deadEnd tid =>
    simp only [Engine.apply] at h; cases h
    have hguard : (dataOf e.bank tid).currentSum < (dataOf e.bank tid).to_.transferCount := by
      simpa [Engine.inScan] using hg
    have hfive := inScan_length cap e tid hinv hguard
    rw [deadEnd_eq]
    refine inv_update cap e _ tid (dataOf e.bank tid).reset _ _ rfl rfl rfl
      (by simp [CashBoxData.reset]) ?_ hinv
    simp only [List.length_append, CashBoxData.reset, List.length_nil]
    omega
  | wake tid =>
    simp only [Engine.apply] at h; cases h
    exact inv_frame cap e _ _ _ rfl rfl (Nat.le_refl _) hinv
  | complete tid =>
    simp only [Engine.apply] at h
    cases hc : complete e.bank tid with
    | none => rw [hc] at h; cases h
    | some s' =>
      rw [hc] at h
      cases h
      obtain ⟨r, k, hloop, -, hk1, hk2⟩ := complete_cases _ _ _ hc
      rw [complete_eq _ _ r k hloop] at hc
      cases hc
      have hsix := hinv.2.2.1 tid
      refine inv_update cap e _ tid (dataOf e.bank tid).reset _ _ rfl rfl rfl
        (by simp [CashBoxData.reset]) ?_ hinv
      simp only [List.length_append, List.length_drop, length_sortByCount,
        CashBoxData.reset, List.length_nil]
      omega
  | clear =>
    simp only [Engine.apply] at h; cases h
    exact inv_frame cap e _ _ _ rfl rfl
      (by simp [clear, freeze_lock, freezeWorkStatus, unfreezeWorkStatus]) hinv

/-- A property that holds initially and is kept by every guarded atomic step holds after
every guarded sequence of steps. -/
theorem runScan_invariant (P : Engine → Prop)
    (hstep : ∀ e a e', P e → e.inScan a = true → e.apply a = some e' → P e') :
    ∀ (acts : List Action) (e e' : Engine), P e → e.runScan acts = some e' → P e' := by
  intro acts
  induction acts with
  | nil =>
    intro e e' hP h
    simp only [Engine.runScan] at h
    cases h
    exact hP
  | cons a rest ih =>
    intro e e' hP h
    simp only [Engine.runScan] at h
    cases hg : e.inScan a with
    | false => rw [hg] at h; simp at h
    | true =>
      rw [hg] at h
      simp only [if_true] at h
      cases ha : e.apply a with
      | none => rw [ha] at h; cases h
      | some e1 =>
        rw [ha] at h
        exact ih e1 e' (hstep e a e1 hP hg ha) h

theorem init_inv (cap : Int) : (Engine.init cap).Inv cap := by
  refine ⟨rfl, fun t => rfl, fun t => ?_, ?_⟩
  · simp [Engine.init, Bank.init, dataOf, lookupData, CashBoxData.init]
  · simp [Engine.init, Bank.init, heldCapped, sumOver]

/-- C9, counterexample.  With capacity 2 and one worker, `refillRun` (a guarded run in
which the generator appends only while the queue is shorter than the capacity) ends with
a queue of length 4, which exceeds the capacity by two. -/
theorem capacity_plus_one_exceeded :
    ((Engine.init 2).runScan refillRun).map
        (fun e => (e.bank.queueOpacity, e.bank.cashBoxData.length, e.bank.queue))
      = some (2, 1, [sellSmall, sellSmall, sellSmall, sellSmall]) ∧
    ((Engine.init 2).runScan refillRun).map
        (fun e => decide ((e.bank.queue.length : Int) ≤ e.bank.queueOpacity + 1))
      = some false := by
  decide

/-- C9, amended.  In every state reached from the empty engine of configured capacity
`cap` by a guarded sequence of atomic steps, the queue length exceeds the capacity as the
generator reads it (`cap` converted to `size_t`) by at most five orders per worker
record; when the configured capacity is a non-negative `int`, that is the configured
capacity itself. -/
theorem queue_length_bound (cap : Int) (acts : List Action) (e : Engine)
    (h : (Engine.init cap).runScan acts = some e) :
    e.bank.queue.length ≤ toSizeT cap + 5 * e.bank.cashBoxData.length ∧
    (0 ≤ cap → cap < 2147483648 →
      (e.bank.queue.length : Int) ≤ cap + 5 * (e.bank.cashBoxData.length : Int)) := by
  have hinv : e.Inv cap :=
    runScan_invariant (Engine.Inv cap) (fun e1 a e2 hP hg ha => apply_inv cap e1 e2 a hP hg ha)
      acts (Engine.init cap) e (init_inv cap) h
  have hJ := hinv.2.2.2
  refine ⟨by omega, fun h0 h1 => ?_⟩
  have hconv := toSizeT_of_nonneg cap h0 h1
  rw [hconv] at hJ
  omega

/-- Witness of the amended C9: `refillRun` ends in `refillEnd`, whose queue of length 4 is
within capacity 2 plus five for the one worker record. -/
theorem queue_length_bound_witness :
    (Engine.init 2).runScan refillRun = some refillEnd ∧
      refillEnd.bank.queue.length ≤ toSizeT 2 + 5 * refillEnd.bank.cashBoxData.length ∧
      (refillEnd.bank.queue.length : Int) ≤ 2 + 5 * (refillEnd.bank.cashBoxData.length : Int) :=
  ⟨by decide, (queue_length_bound 2 refillRun refillEnd (by decide)).1,
    (queue_length_bound 2 refillRun refillEnd (by decide)).2 (by decide) (by decide)⟩

/-- A negative configured capacity is read by the generator as a huge `size_t`: with
capacity `-1` and one worker record seven orders are appended in a row, so the bound in
terms of the configured value needs the capacity to be non-negative. -/
theorem negative_capacity_run :
    ((Engine.init (-1)).runScan negativeCapacityRun).map
        (fun e => (e.bank.queue.length, e.bank.cashBoxData.length)) = some (7, 1) ∧
    toSizeT (-1) = 18446744073709551615 := by
  decide

/-- The bound of five orders per worker record is attained: with capacity 5 and one
worker, `fullRefillRun` ends with a queue of length 10. -/
theorem queue_length_bound_attained :
    ((Engine.init 5).runScan fullRefillRun).map
        (fun e => (e.bank.queue.length, e.bank.cashBoxData.length)) = some (10, 1) := by
  decide

theorem checkPerson_currentCheck (s : Bank) (tid t : ThreadId) :
    (dataOf (checkPerson s tid).1 t).currentCheck = (dataOf s t).currentCheck := by
  rcases checkPerson_state s tid with hs | ⟨b, hs⟩
  · rw [hs]
  · rw [hs, dataOf_writeData]
    split
    · next e => rw [e]
    · rfl

/-- The body of the scan loop increments the cursor of the running worker by one in every
case, also after a successful removal. -/
theorem loopTail_currentCheck (s : Bank) (tid : ThreadId) :
    (dataOf (loopTail s tid) tid).currentCheck = (dataOf s tid).currentCheck + 1 := by
  unfold loopTail advance
  simp only [dataOf_writeData, if_true]
  split
  · rw [pop_currentCheck, checkPerson_currentCheck]
  · rw [checkPerson_currentCheck]

/-- When the order at the cursor is not a candidate, the body of the scan loop changes
nothing but the cursor: queue, collected sequence and running sum stay as they are. -/
theorem loopTail_not_candidate (s : Bank) (tid : ThreadId)
    (h : (checkPerson s tid).2 = false) :
    (loopTail s tid).queue = s.queue ∧
    (dataOf (loopTail s tid) tid).from_ = (dataOf s tid).from_ ∧
    (dataOf (loopTail s tid) tid).currentSum = (dataOf s tid).currentSum := by
  have hs : (checkPerson s tid).1 = s := by
    unfold checkPerson at h ⊢
    simp only at h ⊢
    split
    · rfl
    · next h1 =>
      rw [if_neg h1] at h
      split
      · rfl
      · next h2 =>
        rw [if_neg h2] at h
        split
        · rfl
        · next h3 =>
          rw [if_neg h3] at h
          cases h
  unfold loopTail advance
  simp only [h, hs, dataOf_writeData, if_true]
  exact ⟨rfl, rfl, rfl⟩

/-- Every result that `std::sort` may produce (a permutation of the input in which no
later order has a larger quantity than an earlier one) has the same sequence of
quantities as `sortByCount`. -/
theorem sorted_counts_unique (l l' : List Person) (hperm : l'.Perm l)
    (hsorted : l'.Sorted countGe) :
    l'.map Person.transferCount = (sortByCount l).map Person.transferCount := by
  have hp : (l'.map Person.transferCount).Perm ((sortByCount l).map Person.transferCount) :=
    (hperm.trans (sortByCount_perm l).symm).map _
  have h1 : (l'.map Person.transferCount).Sorted (fun x y : Int => y ≤ x) :=
    List.pairwise_map.2 hsorted
  have h2 : ((sortByCount l).map Person.transferCount).Sorted (fun x y : Int => y ≤ x) :=
    List.pairwise_map.2 (sortByCount_sorted l)
  have hanti : IsAntisymm Int (fun x y : Int => y ≤ x) := ⟨fun _ _ h h' => Int.le_antisymm h' h⟩
  exact List.eq_of_perm_of_sorted hp h1 h2

/-- The consumption loop depends on the collected sequence only through its sequence of
quantities. -/
theorem consumeLoop_congr (l l' : List Person)
    (h : l.map Person.transferCount = l'.map Person.transferCount) (fuel : Nat)
    (st : Int × Nat) : consumeLoop l fuel st = consumeLoop l' fuel st := by
  have hstep : ∀ st, consumeStep l st = consumeStep l' st := by
    intro st
    have hi := congrArg (fun m => m[st.2]?) h
    simp only [List.getElem?_map] at hi
    unfold consumeStep
    cases h1 : l[st.2]? with
    | none =>
      cases h2 : l'[st.2]? with
      | none => rfl
      | some q => rw [h1, h2] at hi; cases hi
    | some p =>
      cases h2 : l'[st.2]? with
      | none => rw [h1, h2] at hi; cases hi
      | some q =>
        rw [h1, h2] at hi
        simp only [Option.map_some', Option.some.injEq] at hi
        simp only [hi]
  induction fuel generalizing st with
  | zero => rfl
  | succ n ih =>
    rw [consumeLoop, consumeLoop, hstep st]
    split
    · rfl
    · cases consumeStep l' st with
      | none => rfl
      | some st' => exact ih st'

end Multithreading
